import Mathlib

/-!
Verification of the stuffed-records codec: a modified COBS encoding that
reserves the two-byte delimiter `0xFE 0xFD` and encodes run lengths in
base 253.  Bytes are modelled as natural numbers; all functions are
shallow embeddings of the corresponding Go functions in
`stuffed/stuffed.go` and `stuffed/records.go`.
-/

namespace Stuffed

def radix : Nat := 0xfd

def maxInitialRun : Nat := radix - 1

def maxRemainingRun : Nat := radix * radix - 1

def delimiterLength : Nat := 2

def delimiter0 : Nat := 0xfe

def delimiter1 : Nat := 0xfd

@[simp] lemma radix_eq : radix = 253 := rfl

@[simp] lemma maxInitialRun_eq : maxInitialRun = 252 := rfl

@[simp] lemma maxRemainingRun_eq : maxRemainingRun = 64008 := rfl

@[simp] lemma delimiter0_eq : delimiter0 = 254 := rfl

@[simp] lemma delimiter1_eq : delimiter1 = 253 := rfl

/-- Errors reported by the decoder (`io.EOF` and `InvalidRunLength` in Go). -/
inductive DecodeError where
  | eof
  | invalidRunLength
deriving DecidableEq

/-- Index of the first occurrence of the delimiter pair `0xfe 0xfd`
(`bytes.Index(record, []byte{delimiter0, delimiter1})`, with `-1`
rendered as `none`). -/
def findDelimIdx : List Nat → Option Nat
  | [] => none
  | [_] => none
  | a :: b :: rest =>
    if a = delimiter0 ∧ b = delimiter1 then some 0
    else (findDelimIdx (b :: rest)).map (· + 1)

/-- The Go helper `findDelimiter(record, maxRun)`: looks for the delimiter
within the first `maxRun` bytes of `record`; returns its index if found,
otherwise `min maxRun (len record)`. -/
def findDelimiter (record : List Nat) (maxRun : Nat) : Nat :=
  match findDelimIdx (record.take maxRun) with
  | none => min maxRun record.length
  | some i => i

lemma findDelimIdx_some_le {l : List Nat} {i : Nat}
    (h : findDelimIdx l = some i) : i + 2 ≤ l.length := by
  induction l generalizing i with
  | nil => simp [findDelimIdx] at h
  | cons a rest ih =>
    cases rest with
    | nil => simp [findDelimIdx] at h
    | cons b rest' =>
      rw [findDelimIdx] at h
      by_cases hab : a = delimiter0 ∧ b = delimiter1
      · rw [if_pos hab] at h
        cases h
        simp
      · rw [if_neg hab, Option.map_eq_some'] at h
        obtain ⟨j, hj, hji⟩ := h
        have h2 := ih hj
        simp only [List.length_cons] at h2 ⊢
        omega

lemma findDelimiter_le_length (record : List Nat) (maxRun : Nat) :
    findDelimiter record maxRun ≤ record.length := by
  unfold findDelimiter
  cases h : findDelimIdx (record.take maxRun) with
  | none => exact Nat.min_le_right _ _
  | some i =>
    show i ≤ record.length
    have h2 := findDelimIdx_some_le h
    simp only [List.length_take] at h2
    omega

lemma findDelimiter_le_max (record : List Nat) (maxRun : Nat) :
    findDelimiter record maxRun ≤ maxRun := by
  unfold findDelimiter
  cases h : findDelimIdx (record.take maxRun) with
  | none => exact Nat.min_le_left _ _
  | some i =>
    show i ≤ maxRun
    have h2 := findDelimIdx_some_le h
    simp only [List.length_take] at h2
    omega

/-- Loop of `Encode`: encodes the remaining bytes with two-byte run-length
headers in base 253 (maximum run 64008). -/
def encodeLoop (record : List Nat) : List Nat :=
  let runSize := findDelimiter record maxRemainingRun
  if hterm : runSize < maxRemainingRun then
    if hnil : record.drop runSize = [] then
      runSize % radix :: runSize / radix :: record.take runSize
    else
      runSize % radix :: runSize / radix ::
        (record.take runSize ++ encodeLoop ((record.drop runSize).drop 2))
  else
    runSize % radix :: runSize / radix ::
      (record.take runSize ++ encodeLoop (record.drop runSize))
termination_by record.length
decreasing_by
  · have h1 := findDelimiter_le_length record maxRemainingRun
    have h4 : 0 < (record.drop (findDelimiter record maxRemainingRun)).length :=
      List.length_pos.mpr hnil
    simp only [List.length_drop] at h4 ⊢
    omega
  · have h1 := findDelimiter_le_length record maxRemainingRun
    have h2 : maxRemainingRun ≤ findDelimiter record maxRemainingRun :=
      Nat.le_of_not_lt hterm
    simp only [List.length_drop, maxRemainingRun_eq] at h1 h2 ⊢
    omega

/-- The Go `Encode`: writes an encoded form of `record` (first chunk has a
one-byte header of at most 252; later chunks are handled by `encodeLoop`).
The returned list is the sequence of bytes appended to the output buffer. -/
def Encode (record : List Nat) : List Nat :=
  let runSize := findDelimiter record maxInitialRun
  if runSize < maxInitialRun then
    if record.drop runSize = [] then
      runSize :: record.take runSize
    else
      runSize :: (record.take runSize ++ encodeLoop ((record.drop runSize).drop 2))
  else
    runSize :: (record.take runSize ++ encodeLoop (record.drop runSize))

/-- The delimiter pair written by `EncodeDelimiter`. -/
def delimiter : List Nat := [delimiter0, delimiter1]

/-- Loop of `Decode`: reads two-byte headers and their payloads, reinserting
the delimiter after each terminal chunk that is not at the end of the input.
Returns the bytes appended to the output buffer together with the error
result (`none` is success). -/
def decodeLoop (encoded : List Nat) : List Nat × Option DecodeError :=
  match encoded with
  | [] => ([], some .eof)
  | [_] => ([], some .eof)
  | b0 :: b1 :: rest =>
    let runLength := b0 + radix * b1
    if runLength > maxRemainingRun then ([], some .invalidRunLength)
    else if rest.length < runLength then ([], some .eof)
    else if runLength < maxRemainingRun then
      if rest.drop runLength = [] then (rest.take runLength, none)
      else
        let r := decodeLoop (rest.drop runLength)
        (rest.take runLength ++ (delimiter ++ r.1), r.2)
    else
      let r := decodeLoop (rest.drop runLength)
      (rest.take runLength ++ r.1, r.2)
termination_by encoded.length
decreasing_by
  all_goals simp only [List.length_drop, List.length_cons]; omega

/-- The Go `Decode`: reads one record encoded by `Encode`, returning the bytes
appended to the output buffer and the error result (`none` is success). -/
def Decode (encoded : List Nat) : List Nat × Option DecodeError :=
  match encoded with
  | [] => ([], some .eof)
  | b0 :: rest =>
    if b0 > maxInitialRun then ([], some .invalidRunLength)
    else if rest.length < b0 then ([], some .eof)
    else if b0 < maxInitialRun then
      if rest.drop b0 = [] then (rest.take b0, none)
      else
        let r := decodeLoop (rest.drop b0)
        (rest.take b0 ++ (delimiter ++ r.1), r.2)
    else
      let r := decodeLoop (rest.drop b0)
      (rest.take b0 ++ r.1, r.2)

/-- Proposition that the delimiter pair occurs at position `p` of `l`. -/
def pairAt (l : List Nat) (p : Nat) : Prop :=
  l[p]? = some delimiter0 ∧ l[p + 1]? = some delimiter1

instance (l : List Nat) (p : Nat) : Decidable (pairAt l p) := by
  unfold pairAt; infer_instance

@[simp] lemma pairAt_nil (p : Nat) : ¬ pairAt [] p := by
  simp [pairAt]

lemma pairAt_cons_succ (a : Nat) (l : List Nat) (j : Nat) :
    pairAt (a :: l) (j + 1) ↔ pairAt l j := by
  simp [pairAt]

lemma pairAt_cons_zero (a b : Nat) (l : List Nat) :
    pairAt (a :: b :: l) 0 ↔ a = delimiter0 ∧ b = delimiter1 := by
  simp [pairAt]

lemma pairAt_singleton (a : Nat) (j : Nat) : ¬ pairAt [a] j := by
  rintro ⟨h1, h2⟩
  rcases j with _ | j
  · simp at h2
  · simp at h1

lemma findDelimIdx_eq_none_iff (l : List Nat) :
    findDelimIdx l = none ↔ ∀ j, ¬ pairAt l j := by
  induction l with
  | nil => simp [findDelimIdx]
  | cons a rest ih =>
    cases rest with
    | nil => simp [findDelimIdx, pairAt_singleton]
    | cons b rest' =>
      rw [findDelimIdx]
      by_cases hab : a = delimiter0 ∧ b = delimiter1
      · rw [if_pos hab]
        simp only [reduceCtorEq, false_iff]
        push_neg
        exact ⟨0, (pairAt_cons_zero a b rest').mpr hab⟩
      · rw [if_neg hab]
        simp only [Option.map_eq_none', ih]
        constructor
        · intro h j
          rcases j with _ | j
          · rw [pairAt_cons_zero]; exact hab
          · rw [pairAt_cons_succ]; exact h j
        · intro h j
          have := h (j + 1)
          rwa [pairAt_cons_succ] at this

lemma findDelimIdx_eq_some_iff (l : List Nat) (i : Nat) :
    findDelimIdx l = some i ↔ pairAt l i ∧ ∀ j < i, ¬ pairAt l j := by
  induction l generalizing i with
  | nil => simp [findDelimIdx]
  | cons a rest ih =>
    cases rest with
    | nil =>
      simp only [findDelimIdx, reduceCtorEq, false_iff, not_and]
      intro h
      exact absurd h (pairAt_singleton a i)
    | cons b rest' =>
      rw [findDelimIdx]
      by_cases hab : a = delimiter0 ∧ b = delimiter1
      · rw [if_pos hab]
        constructor
        · rintro h
          cases h
          exact ⟨(pairAt_cons_zero a b rest').mpr hab, by omega⟩
        · rintro ⟨hp, hmin⟩
          rcases i with _ | i
          · rfl
          · exact absurd ((pairAt_cons_zero a b rest').mpr hab) (hmin 0 (by omega))
      · rw [if_neg hab]
        constructor
        · intro h
          rw [Option.map_eq_some'] at h
          obtain ⟨j, hj, hji⟩ := h
          obtain ⟨hp, hmin⟩ := (ih j).mp hj
          subst hji
          refine ⟨(pairAt_cons_succ a _ j).mpr hp, ?_⟩
          intro k hk
          rcases k with _ | k
          · rw [pairAt_cons_zero]; exact hab
          · rw [pairAt_cons_succ]; exact hmin k (by omega)
        · rintro ⟨hp, hmin⟩
          rcases i with _ | i
          · exact absurd ((pairAt_cons_zero a b rest').mp hp) hab
          · rw [pairAt_cons_succ] at hp
            have : findDelimIdx (b :: rest') = some i := by
              rw [ih]
              refine ⟨hp, ?_⟩
              intro k hk
              have := hmin (k + 1) (by omega)
              rwa [pairAt_cons_succ] at this
            rw [this, Option.map_some']

lemma getElem?_take_of_lt {l : List Nat} {n i : Nat} (h : i < n) :
    (l.take n)[i]? = l[i]? := by
  rcases Nat.lt_or_ge i l.length with hi | hi
  · rw [List.getElem?_eq_getElem (by simp; omega), List.getElem?_eq_getElem hi]
    simp [List.getElem_take]
  · rw [List.getElem?_eq_none (by simp; omega), List.getElem?_eq_none hi]

lemma pairAt_take {l : List Nat} {n j : Nat} :
    pairAt (l.take n) j ↔ j + 1 < n ∧ pairAt l j := by
  constructor
  · rintro ⟨h1, h2⟩
    by_cases hj : j + 1 < n
    · refine ⟨hj, ?_, ?_⟩
      · rw [← getElem?_take_of_lt (l := l) (by omega : j < n)]; exact h1
      · rw [← getElem?_take_of_lt (l := l) hj]; exact h2
    · exfalso
      have : (l.take n)[j+1]? = none := by
        apply List.getElem?_eq_none
        simp
        omega
      rw [this] at h2
      cases h2
  · rintro ⟨hj, h1, h2⟩
    exact ⟨by rw [getElem?_take_of_lt (by omega : j < n)]; exact h1,
           by rw [getElem?_take_of_lt hj]; exact h2⟩

lemma pairAt_drop {l : List Nat} {n j : Nat} :
    pairAt (l.drop n) j ↔ pairAt l (n + j) := by
  unfold pairAt
  rw [List.getElem?_drop, List.getElem?_drop]
  constructor
  · rintro ⟨h1, h2⟩
    exact ⟨h1, by rw [show n + j + 1 = n + (j + 1) by omega]; exact h2⟩
  · rintro ⟨h1, h2⟩
    exact ⟨h1, by rw [show n + (j + 1) = n + j + 1 by omega]; exact h2⟩

lemma cons2_of_getElem? {l : List Nat} {p : Nat} {x y : Nat}
    (h1 : l[p]? = some x) (h2 : l[p + 1]? = some y) :
    l.drop p = x :: y :: l.drop (p + 2) := by
  induction p generalizing l with
  | zero =>
    cases l with
    | nil => simp at h1
    | cons a t =>
      simp at h1
      subst h1
      cases t with
      | nil => simp at h2
      | cons b t' =>
        simp at h2
        subst h2
        rfl
  | succ p ih =>
    cases l with
    | nil => simp at h1
    | cons a t =>
      simp only [List.getElem?_cons_succ] at h1 h2
      simpa using ih h1 h2

lemma pairAt_decomp {l : List Nat} {p : Nat} (h : pairAt l p) :
    l.drop p = delimiter0 :: delimiter1 :: l.drop (p + 2) :=
  cons2_of_getElem? h.1 h.2

/-- Case analysis for `findDelimiter`. -/
lemma findDelimiter_cases (r : List Nat) (m : Nat) :
    (findDelimIdx (r.take m) = none ∧ findDelimiter r m = min m r.length) ∨
    findDelimIdx (r.take m) = some (findDelimiter r m) := by
  unfold findDelimiter
  cases h : findDelimIdx (r.take m) with
  | none => exact Or.inl ⟨rfl, rfl⟩
  | some i => exact Or.inr rfl

/-- The chunk selected by `findDelimiter` contains no delimiter pair. -/
lemma findDelimiter_chunk_no_pair (r : List Nat) (m : Nat) :
    ∀ j, ¬ pairAt (r.take (findDelimiter r m)) j := by
  intro j hj
  rw [pairAt_take] at hj
  obtain ⟨hjlt, hp⟩ := hj
  rcases findDelimiter_cases r m with ⟨hn, he⟩ | hs
  · rw [findDelimIdx_eq_none_iff] at hn
    rw [he] at hjlt
    exact hn j (pairAt_take.mpr ⟨by omega, hp⟩)
  · obtain ⟨_, hmin⟩ := (findDelimIdx_eq_some_iff _ _).mp hs
    have h2 := findDelimIdx_some_le hs
    simp only [List.length_take] at h2
    exact hmin j (by omega) (pairAt_take.mpr ⟨by omega, hp⟩)

/-- If the chunk is terminal and bytes remain, the remainder starts with the
delimiter pair. -/
lemma findDelimiter_rest_delim {r : List Nat} {m : Nat}
    (h1 : findDelimiter r m < m)
    (h2 : r.drop (findDelimiter r m) ≠ []) :
    r.drop (findDelimiter r m)
      = delimiter0 :: delimiter1 :: r.drop (findDelimiter r m + 2) := by
  rcases findDelimiter_cases r m with ⟨hn, he⟩ | hs
  · exfalso
    have hlen : findDelimiter r m = r.length := by rw [he] at h1 ⊢; omega
    rw [hlen, List.drop_length] at h2
    exact h2 rfl
  · have hmem := (findDelimIdx_eq_some_iff _ _).mp hs
    exact pairAt_decomp (pairAt_take.mp hmem.1).2

/-- A list with no occurrence of the delimiter pair. -/
def NoPair (l : List Nat) : Prop := ∀ j, ¬ pairAt l j

lemma noPair_append {x y : List Nat} (hx : NoPair x) (hy : NoPair y)
    (hb : ¬ (x.getLast? = some delimiter0 ∧ y.head? = some delimiter1)) :
    NoPair (x ++ y) := by
  intro j hj
  obtain ⟨h1, h2⟩ := hj
  rcases Nat.lt_or_ge (j + 1) x.length with hlt | hge
  · rw [List.getElem?_append_left (by omega)] at h1
    rw [List.getElem?_append_left hlt] at h2
    exact hx j ⟨h1, h2⟩
  · rcases Nat.lt_or_ge j x.length with hltj | hgej
    · rw [List.getElem?_append_left hltj] at h1
      rw [List.getElem?_append_right (by omega)] at h2
      apply hb
      refine ⟨?_, ?_⟩
      · rw [List.getLast?_eq_getElem?, show x.length - 1 = j by omega]
        exact h1
      · rw [show j + 1 - x.length = 0 by omega] at h2
        rw [List.head?_eq_getElem?]
        exact h2
    · rw [List.getElem?_append_right hgej] at h1
      rw [List.getElem?_append_right (by omega)] at h2
      apply hy (j - x.length)
      refine ⟨h1, ?_⟩
      rwa [show j + 1 - x.length = (j - x.length) + 1 by omega] at h2

lemma noPair_cons {a : Nat} {l : List Nat}
    (h0 : ¬ (a = delimiter0 ∧ l.head? = some delimiter1)) (hl : NoPair l) :
    NoPair (a :: l) := by
  intro j hj
  rcases j with _ | j
  · obtain ⟨h1, h2⟩ := hj
    simp only [List.getElem?_cons_zero, Option.some.injEq] at h1
    apply h0
    refine ⟨h1, ?_⟩
    rw [List.head?_eq_getElem?]
    simpa using h2
  · rw [pairAt_cons_succ] at hj
    exact hl j hj

lemma noPair_nil : NoPair [] := by
  intro j
  simp

lemma encodeLoop_eq_terminal_nil {r : List Nat}
    (h1 : findDelimiter r maxRemainingRun < maxRemainingRun)
    (h2 : r.drop (findDelimiter r maxRemainingRun) = []) :
    encodeLoop r = findDelimiter r maxRemainingRun % radix
      :: findDelimiter r maxRemainingRun / radix
      :: r.take (findDelimiter r maxRemainingRun) := by
  rw [encodeLoop]
  simp only [dif_pos h1, dif_pos h2]

lemma encodeLoop_eq_terminal_cons {r : List Nat}
    (h1 : findDelimiter r maxRemainingRun < maxRemainingRun)
    (h2 : r.drop (findDelimiter r maxRemainingRun) ≠ []) :
    encodeLoop r = findDelimiter r maxRemainingRun % radix
      :: findDelimiter r maxRemainingRun / radix
      :: (r.take (findDelimiter r maxRemainingRun)
          ++ encodeLoop ((r.drop (findDelimiter r maxRemainingRun)).drop 2)) := by
  rw [encodeLoop]
  simp only [dif_pos h1, dif_neg h2]

lemma encodeLoop_eq_saturated {r : List Nat}
    (h1 : ¬ findDelimiter r maxRemainingRun < maxRemainingRun) :
    encodeLoop r = findDelimiter r maxRemainingRun % radix
      :: findDelimiter r maxRemainingRun / radix
      :: (r.take (findDelimiter r maxRemainingRun)
          ++ encodeLoop (r.drop (findDelimiter r maxRemainingRun))) := by
  rw [encodeLoop]
  simp only [dif_neg h1]

lemma Encode_eq_terminal_nil {r : List Nat}
    (h1 : findDelimiter r maxInitialRun < maxInitialRun)
    (h2 : r.drop (findDelimiter r maxInitialRun) = []) :
    Encode r = findDelimiter r maxInitialRun :: r.take (findDelimiter r maxInitialRun) := by
  rw [Encode]
  simp only [if_pos h1, if_pos h2]

lemma Encode_eq_terminal_cons {r : List Nat}
    (h1 : findDelimiter r maxInitialRun < maxInitialRun)
    (h2 : r.drop (findDelimiter r maxInitialRun) ≠ []) :
    Encode r = findDelimiter r maxInitialRun
      :: (r.take (findDelimiter r maxInitialRun)
          ++ encodeLoop ((r.drop (findDelimiter r maxInitialRun)).drop 2)) := by
  rw [Encode]
  simp only [if_pos h1, if_neg h2]

lemma Encode_eq_saturated {r : List Nat}
    (h1 : ¬ findDelimiter r maxInitialRun < maxInitialRun) :
    Encode r = findDelimiter r maxInitialRun
      :: (r.take (findDelimiter r maxInitialRun)
          ++ encodeLoop (r.drop (findDelimiter r maxInitialRun))) := by
  rw [Encode]
  simp only [if_neg h1]

lemma chunk_length {r : List Nat} {m : Nat} :
    (r.take (findDelimiter r m)).length = findDelimiter r m := by
  have := findDelimiter_le_length r m
  simp only [List.length_take]
  omega

lemma encodeLoop_head (r : List Nat) :
    ∃ t, encodeLoop r = findDelimiter r maxRemainingRun % radix :: t := by
  by_cases h1 : findDelimiter r maxRemainingRun < maxRemainingRun
  · by_cases h2 : r.drop (findDelimiter r maxRemainingRun) = []
    · exact ⟨_, encodeLoop_eq_terminal_nil h1 h2⟩
    · exact ⟨_, encodeLoop_eq_terminal_cons h1 h2⟩
  · exact ⟨_, encodeLoop_eq_saturated h1⟩

lemma encodeLoop_ne_nil (r : List Nat) : encodeLoop r ≠ [] := by
  obtain ⟨t, ht⟩ := encodeLoop_head r
  rw [ht]
  simp

lemma noPair_cons2 {a b : Nat} {rest : List Nat} (ha : a < 253) (hb : b < 253)
    (hrest : NoPair rest) : NoPair (a :: b :: rest) := by
  apply noPair_cons
  · rintro ⟨h, _⟩
    simp only [delimiter0_eq] at h
    omega
  apply noPair_cons
  · rintro ⟨h, _⟩
    simp only [delimiter0_eq] at h
    omega
  exact hrest

lemma noPair_chunk_append {r : List Nat} {m : Nat} {r' : List Nat}
    (h : NoPair (encodeLoop r')) :
    NoPair (r.take (findDelimiter r m) ++ encodeLoop r') := by
  apply noPair_append (findDelimiter_chunk_no_pair r m) h
  rintro ⟨_, hh⟩
  obtain ⟨t, ht⟩ := encodeLoop_head r'
  rw [ht] at hh
  simp only [List.head?_cons, Option.some.injEq, delimiter1_eq, radix_eq] at hh
  omega

lemma encodeLoop_headers_lt (r : List Nat) :
    findDelimiter r maxRemainingRun % radix < 253 ∧
    findDelimiter r maxRemainingRun / radix < 253 := by
  have := findDelimiter_le_max r maxRemainingRun
  simp only [radix_eq, maxRemainingRun_eq] at this ⊢
  omega

/-- Every byte sequence produced by `encodeLoop` is free of the delimiter
pair. -/
lemma encodeLoop_noPair (r : List Nat) : NoPair (encodeLoop r) := by
  suffices H : ∀ (fuel : Nat) (l : List Nat), l.length ≤ fuel → NoPair (encodeLoop l) by
    exact H r.length r le_rfl
  intro fuel
  induction fuel with
  | zero =>
    intro l hl
    have hln : l = [] := by
      cases l with
      | nil => rfl
      | cons a t => simp at hl
    subst hln
    have h1 : findDelimiter [] maxRemainingRun < maxRemainingRun := by
      simp [findDelimiter, findDelimIdx]
    rw [encodeLoop_eq_terminal_nil h1 (by simp)]
    exact noPair_cons2 (encodeLoop_headers_lt []).1 (encodeLoop_headers_lt []).2
      (findDelimiter_chunk_no_pair [] maxRemainingRun)
  | succ fuel ih =>
    intro l hl
    by_cases h1 : findDelimiter l maxRemainingRun < maxRemainingRun
    · by_cases h2 : l.drop (findDelimiter l maxRemainingRun) = []
      · rw [encodeLoop_eq_terminal_nil h1 h2]
        exact noPair_cons2 (encodeLoop_headers_lt l).1 (encodeLoop_headers_lt l).2
          (findDelimiter_chunk_no_pair l maxRemainingRun)
      · rw [encodeLoop_eq_terminal_cons h1 h2]
        refine noPair_cons2 (encodeLoop_headers_lt l).1 (encodeLoop_headers_lt l).2 ?_
        apply noPair_chunk_append
        apply ih
        have hlt : findDelimiter l maxRemainingRun < l.length := by
          have := findDelimiter_le_length l maxRemainingRun
          have hpos : 0 < (l.drop (findDelimiter l maxRemainingRun)).length :=
            List.length_pos.mpr h2
          simp only [List.length_drop] at hpos
          omega
        simp only [List.length_drop]
        omega
    · rw [encodeLoop_eq_saturated h1]
      refine noPair_cons2 (encodeLoop_headers_lt l).1 (encodeLoop_headers_lt l).2 ?_
      apply noPair_chunk_append
      apply ih
      have hge : maxRemainingRun ≤ findDelimiter l maxRemainingRun := Nat.le_of_not_lt h1
      have hlen := findDelimiter_le_length l maxRemainingRun
      simp only [List.length_drop, maxRemainingRun_eq] at hge ⊢
      omega

/-- Every byte sequence produced by `Encode` is free of the delimiter pair. -/
lemma Encode_noPair (r : List Nat) : NoPair (Encode r) := by
  have hhead : findDelimiter r maxInitialRun < 253 := by
    have := findDelimiter_le_max r maxInitialRun
    simp only [maxInitialRun_eq] at this ⊢
    omega
  by_cases h1 : findDelimiter r maxInitialRun < maxInitialRun
  · by_cases h2 : r.drop (findDelimiter r maxInitialRun) = []
    · rw [Encode_eq_terminal_nil h1 h2]
      apply noPair_cons
      · rintro ⟨h, _⟩
        simp only [delimiter0_eq] at h
        omega
      exact findDelimiter_chunk_no_pair r maxInitialRun
    · rw [Encode_eq_terminal_cons h1 h2]
      apply noPair_cons
      · rintro ⟨h, _⟩
        simp only [delimiter0_eq] at h
        omega
      exact noPair_chunk_append (encodeLoop_noPair _)
  · rw [Encode_eq_saturated h1]
    apply noPair_cons
    · rintro ⟨h, _⟩
      simp only [delimiter0_eq] at h
      omega
    exact noPair_chunk_append (encodeLoop_noPair _)

lemma delimiter_infix_iff (l : List Nat) :
    delimiter <:+: l ↔ ∃ j, pairAt l j := by
  constructor
  · rintro ⟨s, t, hst⟩
    refine ⟨s.length, ?_, ?_⟩
    · rw [← hst, List.append_assoc, List.getElem?_append_right (le_refl s.length)]
      simp [delimiter]
    · rw [← hst, List.append_assoc, List.getElem?_append_right (by omega)]
      rw [show s.length + 1 - s.length = 1 by omega]
      simp [delimiter]
  · rintro ⟨j, hj⟩
    refine ⟨l.take j, l.drop (j + 2), ?_⟩
    have hd := pairAt_decomp hj
    rw [List.append_assoc]
    calc l.take j ++ (delimiter ++ l.drop (j + 2))
        = l.take j ++ l.drop j := by rw [hd]; rfl
      _ = l := List.take_append_drop j l

/-- Unfolding equation of `decodeLoop` on an input with at least two bytes. -/
lemma decodeLoop_cons2 (b0 b1 : Nat) (rest : List Nat) :
    decodeLoop (b0 :: b1 :: rest) =
      if b0 + radix * b1 > maxRemainingRun then ([], some .invalidRunLength)
      else if rest.length < b0 + radix * b1 then ([], some .eof)
      else if b0 + radix * b1 < maxRemainingRun then
        if rest.drop (b0 + radix * b1) = [] then (rest.take (b0 + radix * b1), none)
        else
          (rest.take (b0 + radix * b1)
            ++ (delimiter ++ (decodeLoop (rest.drop (b0 + radix * b1))).1),
           (decodeLoop (rest.drop (b0 + radix * b1))).2)
      else
        (rest.take (b0 + radix * b1) ++ (decodeLoop (rest.drop (b0 + radix * b1))).1,
         (decodeLoop (rest.drop (b0 + radix * b1))).2) := by
  rw [decodeLoop]

/-- Unfolding equation of `Decode` on a non-empty input. -/
lemma Decode_cons (b0 : Nat) (rest : List Nat) :
    Decode (b0 :: rest) =
      if b0 > maxInitialRun then ([], some .invalidRunLength)
      else if rest.length < b0 then ([], some .eof)
      else if b0 < maxInitialRun then
        if rest.drop b0 = [] then (rest.take b0, none)
        else
          (rest.take b0 ++ (delimiter ++ (decodeLoop (rest.drop b0)).1),
           (decodeLoop (rest.drop b0)).2)
      else
        (rest.take b0 ++ (decodeLoop (rest.drop b0)).1,
         (decodeLoop (rest.drop b0)).2) := by
  rw [Decode]

/-- Decoding inverts `encodeLoop`. -/
lemma decodeLoop_encodeLoop (r : List Nat) :
    decodeLoop (encodeLoop r) = (r, none) := by
  suffices H : ∀ (fuel : Nat) (l : List Nat), l.length ≤ fuel →
      decodeLoop (encodeLoop l) = (l, none) by
    exact H r.length r le_rfl
  intro fuel
  induction fuel with
  | zero =>
    intro l hl
    have hln : l = [] := by
      cases l with
      | nil => rfl
      | cons a t => simp at hl
    subst hln
    have h1 : findDelimiter [] maxRemainingRun < maxRemainingRun := by
      simp [findDelimiter, findDelimIdx]
    rw [encodeLoop_eq_terminal_nil h1 (by simp), decodeLoop_cons2,
      Nat.mod_add_div]
    simp [findDelimiter, findDelimIdx]
  | succ fuel ih =>
    intro l hl
    have hlen := findDelimiter_le_length l maxRemainingRun
    have hmax := findDelimiter_le_max l maxRemainingRun
    have hck : (l.take (findDelimiter l maxRemainingRun)).length
        = findDelimiter l maxRemainingRun := chunk_length
    by_cases h1 : findDelimiter l maxRemainingRun < maxRemainingRun
    · by_cases h2 : l.drop (findDelimiter l maxRemainingRun) = []
      · have hle : l.length ≤ findDelimiter l maxRemainingRun :=
          List.drop_eq_nil_iff.mp h2
        have hd : (l.take (findDelimiter l maxRemainingRun)).drop
            (findDelimiter l maxRemainingRun) = [] := by
          rw [List.drop_eq_nil_iff, hck]
        rw [encodeLoop_eq_terminal_nil h1 h2, decodeLoop_cons2, Nat.mod_add_div]
        rw [if_neg (by omega), if_neg (by rw [hck]; omega), if_pos h1, if_pos hd]
        rw [List.take_of_length_le (by rw [hck])]
        rw [List.take_of_length_le hle]
      · have hne : findDelimiter l maxRemainingRun < l.length := by
          have hpos : 0 < (l.drop (findDelimiter l maxRemainingRun)).length :=
            List.length_pos.mpr h2
          simp only [List.length_drop] at hpos
          omega
        have hrec : decodeLoop (encodeLoop ((l.drop (findDelimiter l maxRemainingRun)).drop 2))
            = ((l.drop (findDelimiter l maxRemainingRun)).drop 2, none) := by
          apply ih
          simp only [List.length_drop]
          omega
        rw [encodeLoop_eq_terminal_cons h1 h2, decodeLoop_cons2, Nat.mod_add_div]
        rw [if_neg (by omega),
          if_neg (by simp only [List.length_append, hck]; omega), if_pos h1,
          List.drop_left' hck, List.take_left' hck,
          if_neg (encodeLoop_ne_nil _), hrec]
        have hdel := findDelimiter_rest_delim h1 h2
        rw [List.drop_drop]
        rw [show delimiter ++ l.drop (findDelimiter l maxRemainingRun + 2)
            = l.drop (findDelimiter l maxRemainingRun) by rw [hdel]; rfl]
        rw [List.take_append_drop]
    · have h1' : maxRemainingRun ≤ findDelimiter l maxRemainingRun := Nat.le_of_not_lt h1
      have hm1 : 1 ≤ maxRemainingRun := by simp
      have hrec : decodeLoop (encodeLoop (l.drop (findDelimiter l maxRemainingRun)))
          = (l.drop (findDelimiter l maxRemainingRun), none) := by
        apply ih
        simp only [List.length_drop]
        omega
      rw [encodeLoop_eq_saturated h1, decodeLoop_cons2, Nat.mod_add_div]
      rw [if_neg (by omega),
        if_neg (by simp only [List.length_append, hck]; omega), if_neg h1,
        List.drop_left' hck, List.take_left' hck, hrec]
      rw [List.take_append_drop]

/-- Decoding inverts `Encode`: the round-trip property for a single record. -/
lemma Decode_Encode (r : List Nat) : Decode (Encode r) = (r, none) := by
  have hlen := findDelimiter_le_length r maxInitialRun
  have hmax := findDelimiter_le_max r maxInitialRun
  have hck : (r.take (findDelimiter r maxInitialRun)).length
      = findDelimiter r maxInitialRun := chunk_length
  by_cases h1 : findDelimiter r maxInitialRun < maxInitialRun
  · by_cases h2 : r.drop (findDelimiter r maxInitialRun) = []
    · have hle : r.length ≤ findDelimiter r maxInitialRun :=
        List.drop_eq_nil_iff.mp h2
      have hd : (r.take (findDelimiter r maxInitialRun)).drop
          (findDelimiter r maxInitialRun) = [] := by
        rw [List.drop_eq_nil_iff, hck]
      rw [Encode_eq_terminal_nil h1 h2, Decode_cons]
      rw [if_neg (by omega), if_neg (by rw [hck]; omega), if_pos h1, if_pos hd]
      rw [List.take_of_length_le (by rw [hck])]
      rw [List.take_of_length_le hle]
    · rw [Encode_eq_terminal_cons h1 h2, Decode_cons]
      rw [if_neg (by omega),
        if_neg (by simp only [List.length_append, hck]; omega), if_pos h1,
        List.drop_left' hck, List.take_left' hck,
        if_neg (encodeLoop_ne_nil _), decodeLoop_encodeLoop]
      have hdel := findDelimiter_rest_delim h1 h2
      rw [List.drop_drop]
      rw [show delimiter ++ r.drop (findDelimiter r maxInitialRun + 2)
          = r.drop (findDelimiter r maxInitialRun) by rw [hdel]; rfl]
      rw [List.take_append_drop]
  · rw [Encode_eq_saturated h1, Decode_cons]
    rw [if_neg (by omega),
      if_neg (by simp only [List.length_append, hck]; omega), if_neg h1,
      List.drop_left' hck, List.take_left' hck, decodeLoop_encodeLoop]
    rw [List.take_append_drop]

/-- The Go `IsStartOfRecord`: whether `offset` could be the start of a stuffed
record within `buffer` (offset 0, or immediately after a delimiter pair, and
strictly inside the buffer). -/
def IsStartOfRecord (buffer : List Nat) (offset : Nat) : Bool :=
  if offset = 1 ∨ offset ≥ buffer.length then false
  else if 2 ≤ offset ∧ ¬ (buffer.getD (offset - 2) 0 = delimiter0 ∧
      buffer.getD (offset - 1) 0 = delimiter1) then false
  else true

lemma Encode_ne_nil (r : List Nat) : Encode r ≠ [] := by
  by_cases h1 : findDelimiter r maxInitialRun < maxInitialRun
  · by_cases h2 : r.drop (findDelimiter r maxInitialRun) = []
    · rw [Encode_eq_terminal_nil h1 h2]
      simp
    · rw [Encode_eq_terminal_cons h1 h2]
      simp
  · rw [Encode_eq_saturated h1]
    simp

/-- Strip all leading delimiter pairs (the loop at the top of
`Scanner.Next`). -/
def stripDelims (l : List Nat) : List Nat :=
  match l with
  | a :: b :: rest =>
    if a = delimiter0 ∧ b = delimiter1 then stripDelims rest else l
  | _ => l

lemma stripDelims_nil : stripDelims [] = [] := by
  rw [stripDelims.eq_def]

lemma stripDelims_cons2 (t : List Nat) :
    stripDelims (delimiter0 :: delimiter1 :: t) = stripDelims t := by
  rw [stripDelims, if_pos ⟨rfl, rfl⟩]

lemma stripDelims_length_le (l : List Nat) :
    (stripDelims l).length ≤ l.length := by
  induction l using stripDelims.induct with
  | case1 a b rest hab ih =>
    rw [stripDelims, if_pos hab]
    simp only [List.length_cons]
    omega
  | case2 a b rest hab =>
    rw [stripDelims, if_neg hab]
  | case3 l h =>
    have hself : stripDelims l = l := by
      cases l with
      | nil => rfl
      | cons a t =>
        cases t with
        | nil => rfl
        | cons b t' => exact absurd rfl (h a b t')
    rw [hself]

lemma stripDelims_not_pair_zero (l : List Nat) :
    ¬ pairAt (stripDelims l) 0 := by
  induction l using stripDelims.induct with
  | case1 a b rest hab ih =>
    rw [stripDelims, if_pos hab]
    exact ih
  | case2 a b rest hab =>
    rw [stripDelims, if_neg hab]
    rw [pairAt_cons_zero]
    exact hab
  | case3 l h =>
    have hself : stripDelims l = l := by
      cases l with
      | nil => rfl
      | cons a t =>
        cases t with
        | nil => rfl
        | cons b t' => exact absurd rfl (h a b t')
    rw [hself]
    cases l with
    | nil => simp
    | cons a t =>
      cases t with
      | nil => exact pairAt_singleton a 0
      | cons b t' => exact absurd rfl (h a b t')

lemma stripDelims_eq_self {l : List Nat} (h : ¬ pairAt l 0) :
    stripDelims l = l := by
  cases l with
  | nil => rfl
  | cons a t =>
    cases t with
    | nil => rfl
    | cons b t' =>
      rw [stripDelims, if_neg]
      intro hab
      exact h ((pairAt_cons_zero a b t').mpr hab)

/-- Iterating `Scanner.Next`: the list of encoded-record slices produced by
repeatedly calling `Next` on a stream of delimited stuffed records. -/
def scanEncoded (list : List Nat) : List (List Nat) :=
  if hne : stripDelims list = [] then []
  else
    match h2 : findDelimIdx (stripDelims list) with
    | none => [stripDelims list]
    | some i =>
      (stripDelims list).take i :: scanEncoded ((stripDelims list).drop i)
termination_by list.length
decreasing_by
  have hlen : (stripDelims list).length ≤ list.length := stripDelims_length_le list
  have hi : 1 ≤ i := by
    rcases Nat.eq_zero_or_pos i with rfl | hp
    · exact absurd ((findDelimIdx_eq_some_iff _ _).mp h2).1
        (stripDelims_not_pair_zero list)
    · exact hp
  have hpos : 0 < (stripDelims list).length := by
    rcases Nat.eq_zero_or_pos (stripDelims list).length with hz | hp
    · exact absurd (List.length_eq_zero.mp hz) hne
    · exact hp
  simp only [List.length_drop]
  omega

lemma scanEncoded_eq_nil {l : List Nat} (h : stripDelims l = []) :
    scanEncoded l = [] := by
  rw [scanEncoded, dif_pos h]

lemma scanEncoded_eq_single {l : List Nat} (hne : stripDelims l ≠ [])
    (hfd : findDelimIdx (stripDelims l) = none) :
    scanEncoded l = [stripDelims l] := by
  rw [scanEncoded, dif_neg hne]
  split
  · rfl
  · rename_i i heq
    rw [hfd] at heq
    cases heq

lemma scanEncoded_eq_cons {l : List Nat} {i : Nat} (hne : stripDelims l ≠ [])
    (hfd : findDelimIdx (stripDelims l) = some i) :
    scanEncoded l
      = (stripDelims l).take i :: scanEncoded ((stripDelims l).drop i) := by
  rw [scanEncoded, dif_neg hne]
  split
  · rename_i heq
    rw [hfd] at heq
    cases heq
  · rename_i j heq
    rw [hfd] at heq
    cases heq
    rfl

lemma noPair_findDelimIdx_none {e : List Nat} (h : NoPair e) :
    findDelimIdx e = none :=
  (findDelimIdx_eq_none_iff e).mpr h

lemma findDelimIdx_append_delim {e t : List Nat} (hne : e ≠ [])
    (hnp : NoPair e) :
    findDelimIdx (e ++ delimiter0 :: delimiter1 :: t) = some e.length := by
  rw [findDelimIdx_eq_some_iff]
  refine ⟨⟨?_, ?_⟩, ?_⟩
  · rw [List.getElem?_append_right (le_refl _), Nat.sub_self]
    simp
  · rw [List.getElem?_append_right (by omega),
      show e.length + 1 - e.length = 1 by omega]
    simp
  · intro j hj hp
    obtain ⟨h1, h2⟩ := hp
    rcases Nat.lt_or_ge (j + 1) e.length with hlt | hge
    · refine hnp j ⟨?_, ?_⟩
      · rw [List.getElem?_append_left (by omega)] at h1
        exact h1
      · rw [List.getElem?_append_left hlt] at h2
        exact h2
    · rw [List.getElem?_append_right (by omega),
        show j + 1 - e.length = 0 by omega] at h2
      simp at h2

lemma stripDelims_append_self {e X : List Nat} (hne : e ≠ []) (hnp : NoPair e)
    (hX : X = [] ∨ X.head? = some delimiter0) :
    stripDelims (e ++ X) = e ++ X := by
  apply stripDelims_eq_self
  rintro ⟨h1, h2⟩
  rcases Nat.lt_or_ge 1 e.length with hlt | hge
  · refine hnp 0 ⟨?_, ?_⟩
    · rw [List.getElem?_append_left (by omega)] at h1
      exact h1
    · rw [List.getElem?_append_left hlt] at h2
      exact h2
  · have he1 : e.length = 1 := by
      have : 0 < e.length := List.length_pos.mpr hne
      omega
    rw [List.getElem?_append_right (by omega),
      show 0 + 1 - e.length = 0 by omega] at h2
    rcases hX with rfl | hX
    · simp at h2
    · rw [List.head?_eq_getElem?] at hX
      rw [hX] at h2
      simp at h2

/-- Scanning a stream that starts with a complete delimiter-free record
followed by a delimiter yields that record first. -/
lemma scan_cons {e t : List Nat} (hne : e ≠ []) (hnp : NoPair e) :
    scanEncoded (e ++ delimiter0 :: delimiter1 :: t) = e :: scanEncoded t := by
  have hhead : (delimiter0 :: delimiter1 :: t).head? = some delimiter0 := rfl
  have hs := stripDelims_append_self hne hnp (Or.inr hhead)
  have hfd : findDelimIdx (stripDelims (e ++ delimiter0 :: delimiter1 :: t))
      = some e.length := by
    rw [hs]
    exact findDelimIdx_append_delim hne hnp
  rw [scanEncoded_eq_cons (by rw [hs]; simp [hne]) hfd, hs,
    List.take_left, List.drop_left]
  congr 1
  by_cases hc : stripDelims t = []
  · rw [scanEncoded_eq_nil (by rw [stripDelims_cons2]; exact hc),
      scanEncoded_eq_nil hc]
  · cases hfd2 : findDelimIdx (stripDelims t) with
    | none =>
      rw [scanEncoded_eq_single (by rw [stripDelims_cons2]; exact hc)
          (by rw [stripDelims_cons2]; exact hfd2),
        scanEncoded_eq_single hc hfd2, stripDelims_cons2]
    | some i =>
      rw [scanEncoded_eq_cons (by rw [stripDelims_cons2]; exact hc)
          (by rw [stripDelims_cons2]; exact hfd2),
        scanEncoded_eq_cons hc hfd2, stripDelims_cons2]

/-- Scanning a stream that begins with a delimiter pair skips it. -/
lemma scan_delim_cons (t : List Nat) :
    scanEncoded (delimiter0 :: delimiter1 :: t) = scanEncoded t := by
  by_cases hc : stripDelims t = []
  · rw [scanEncoded_eq_nil (by rw [stripDelims_cons2]; exact hc),
      scanEncoded_eq_nil hc]
  · cases hfd : findDelimIdx (stripDelims t) with
    | none =>
      rw [scanEncoded_eq_single (by rw [stripDelims_cons2]; exact hc)
          (by rw [stripDelims_cons2]; exact hfd),
        scanEncoded_eq_single hc hfd, stripDelims_cons2]
    | some i =>
      rw [scanEncoded_eq_cons (by rw [stripDelims_cons2]; exact hc)
          (by rw [stripDelims_cons2]; exact hfd),
        scanEncoded_eq_cons hc hfd, stripDelims_cons2]

/-- Scanning a single complete delimiter-free record with no trailing bytes
yields just that record. -/
lemma scan_single {e : List Nat} (hne : e ≠ []) (hnp : NoPair e) :
    scanEncoded e = [e] := by
  have hs : stripDelims e = e := stripDelims_eq_self (hnp 0)
  rw [scanEncoded_eq_single (by rw [hs]; exact hne)
    (by rw [hs]; exact noPair_findDelimIdx_none hnp), hs]

/-- Modelling device for C5: `k` consecutive copies of the delimiter pair. -/
def delimReps : Nat → List Nat
  | 0 => []
  | k + 1 => delimiter0 :: delimiter1 :: delimReps k

lemma scanEncoded_delimReps_append (k : Nat) (t : List Nat) :
    scanEncoded (delimReps k ++ t) = scanEncoded t := by
  induction k with
  | zero => rw [delimReps, List.nil_append]
  | succ k ih =>
    rw [delimReps]
    simp only [List.cons_append]
    rw [scan_delim_cons, ih]

/-- Modelling device for C5: a stream made of encoded records, where each
record is preceded by a chosen number of delimiter pairs and the stream ends
with a chosen number of delimiter pairs. -/
def paddedStream : List (Nat × List Nat) → Nat → List Nat
  | [], kend => delimReps kend
  | (k, r) :: rest, kend => delimReps k ++ (Encode r ++ paddedStream rest kend)

lemma scan_paddedStream (ps : List (Nat × List Nat)) :
    ∀ (kend : Nat), (∀ p ∈ ps.drop 1, 1 ≤ p.1) →
    scanEncoded (paddedStream ps kend) = ps.map (fun p => Encode p.2) := by
  induction ps with
  | nil =>
    intro kend _
    rw [paddedStream]
    have h2 := scanEncoded_delimReps_append kend []
    rw [List.append_nil] at h2
    rw [h2, scanEncoded_eq_nil stripDelims_nil]
    rfl
  | cons hd rest ih =>
    intro kend h
    obtain ⟨k, r⟩ := hd
    rw [paddedStream, scanEncoded_delimReps_append]
    cases rest with
    | nil =>
      rw [paddedStream]
      cases kend with
      | zero =>
        rw [delimReps, List.append_nil,
          scan_single (Encode_ne_nil r) (Encode_noPair r)]
        rfl
      | succ k' =>
        rw [delimReps, scan_cons (Encode_ne_nil r) (Encode_noPair r)]
        have h2 := scanEncoded_delimReps_append k' []
        rw [List.append_nil] at h2
        rw [h2, scanEncoded_eq_nil stripDelims_nil]
        rfl
    | cons hd2 rest2 =>
      obtain ⟨k2, r2⟩ := hd2
      have hk2 : 1 ≤ k2 := h (k2, r2) (by simp)
      obtain ⟨k2', rfl⟩ : ∃ k2', k2 = k2' + 1 := ⟨k2 - 1, by omega⟩
      have hh : ∀ p ∈ ((k2' + 1, r2) :: rest2).drop 1, 1 ≤ p.1 := by
        intro p hp
        apply h
        simp only [List.drop_one, List.tail_cons] at hp ⊢
        exact List.mem_cons_of_mem _ hp
      have hrest := ih kend hh
      rw [paddedStream, scanEncoded_delimReps_append] at hrest
      rw [paddedStream, delimReps]
      simp only [List.cons_append]
      rw [scan_cons (Encode_ne_nil r) (Encode_noPair r),
        scanEncoded_delimReps_append, hrest]
      rfl

/-- Go `bytes.Compare` rendered on byte lists: -1, 0 or 1. -/
def bytesCompare : List Nat → List Nat → Int
  | [], [] => 0
  | [], _ :: _ => -1
  | _ :: _, [] => 1
  | a :: as, b :: bs =>
    if a < b then -1 else if b < a then 1 else bytesCompare as bs

/-- Go `checkPrefix(chunk, prefix)`: compares `chunk` against the equal-length
initial segment of the remaining prefix, returning the comparison result and
the number of bytes compared. -/
def checkPrefix (chunk pre : List Nat) : Int × Nat :=
  let length := min chunk.length pre.length
  (bytesCompare (chunk.take length) (pre.take length), length)

/-- Loop of `CompareEncodedPrefix` over the subsequent two-byte-header
chunks. -/
def cepLoop (encoded pre : List Nat) : Int × Option DecodeError :=
  if pre = [] then (0, none)
  else
    match encoded with
    | [] => (0, some .eof)
    | [_] => (0, some .eof)
    | b0 :: b1 :: rest =>
      let runLength := b0 + radix * b1
      if runLength > maxRemainingRun then (0, some .invalidRunLength)
      else if rest.length < runLength then (0, some .eof)
      else
        let cp := checkPrefix (rest.take runLength) pre
        if cp.1 ≠ 0 then (cp.1, none)
        else
          let pre2 := pre.drop cp.2
          if runLength < maxRemainingRun then
            if pre2 = [] then (0, none)
            else if rest.drop runLength = [] then (-1, none)
            else
              let cp2 := checkPrefix delimiter pre2
              if cp2.1 ≠ 0 then (cp2.1, none)
              else cepLoop (rest.drop runLength) (pre2.drop cp2.2)
          else cepLoop (rest.drop runLength) pre2
termination_by encoded.length
decreasing_by
  all_goals simp only [List.length_drop, List.length_cons]; omega

/-- Go `CompareEncodedPrefix`: compares the decoded content of a stuffed
record against a prefix, reading only the encoded bytes. -/
def CompareEncodedPrefix (encoded pre : List Nat) : Int × Option DecodeError :=
  if pre = [] then (0, none)
  else
    match encoded with
    | [] => (0, some .eof)
    | b0 :: rest =>
      if b0 > maxInitialRun then (0, some .invalidRunLength)
      else if rest.length < b0 then (0, some .eof)
      else
        let cp := checkPrefix (rest.take b0) pre
        if cp.1 ≠ 0 then (cp.1, none)
        else
          let pre2 := pre.drop cp.2
          if b0 < maxInitialRun then
            if pre2 = [] then (0, none)
            else if rest.drop b0 = [] then (-1, none)
            else
              let cp2 := checkPrefix delimiter pre2
              if cp2.1 ≠ 0 then (cp2.1, none)
              else cepLoop (rest.drop b0) (pre2.drop cp2.2)
          else cepLoop (rest.drop b0) pre2

/-- Go `EncodedStartsWith`: whether the decoded content of a stuffed record
begins with a prefix. -/
def EncodedStartsWith (encoded pre : List Nat) : Bool × Option DecodeError :=
  let c := CompareEncodedPrefix encoded pre
  (c.1 == 0, c.2)

/-- Specification-side ordering from the claim's words: walk the raw record
and the prefix together; `0` when the prefix is exhausted (the record's
initial segment equals the prefix), `-1` when the record ends first or its
first differing byte is smaller, `1` when its first differing byte is
larger. -/
def specPrefixCmp : List Nat → List Nat → Int
  | _, [] => 0
  | [], _ :: _ => -1
  | a :: rs, b :: ps =>
    if a < b then -1 else if b < a then 1 else specPrefixCmp rs ps

lemma specPrefixCmp_nil_right (r : List Nat) : specPrefixCmp r [] = 0 := by
  cases r <;> rfl

lemma specPrefixCmp_common (u r p : List Nat) :
    specPrefixCmp (u ++ r) (u ++ p) = specPrefixCmp r p := by
  induction u with
  | nil => rfl
  | cons a u' ih =>
    simp only [List.cons_append]
    rw [specPrefixCmp, if_neg (lt_irrefl a), if_neg (lt_irrefl a)]
    exact ih

lemma specPrefixCmp_eq_zero_iff (r p : List Nat) :
    specPrefixCmp r p = 0 ↔ p <+: r := by
  induction p generalizing r with
  | nil => simp [specPrefixCmp_nil_right]
  | cons b ps ih =>
    cases r with
    | nil =>
      rw [specPrefixCmp]
      constructor
      · intro h
        cases h
      · intro h
        have := h.length_le
        simp at this
    | cons a rs =>
      rw [specPrefixCmp]
      by_cases hab : a < b
      · rw [if_pos hab]
        constructor
        · intro h
          cases h
        · intro h
          rw [List.cons_prefix_cons] at h
          omega
      · rw [if_neg hab]
        by_cases hba : b < a
        · rw [if_pos hba]
          constructor
          · intro h
            cases h
          · intro h
            rw [List.cons_prefix_cons] at h
            omega
        · rw [if_neg hba]
          have hab2 : a = b := by omega
          rw [ih, List.cons_prefix_cons]
          subst hab2
          simp

lemma bytesCompare_eq_zero {a b : List Nat} (h : bytesCompare a b = 0) :
    a = b := by
  induction a generalizing b with
  | nil =>
    cases b with
    | nil => rfl
    | cons x xs => rw [bytesCompare] at h; cases h
  | cons x xs ih =>
    cases b with
    | nil => rw [bytesCompare] at h; cases h
    | cons y ys =>
      rw [bytesCompare] at h
      by_cases hxy : x < y
      · rw [if_pos hxy] at h
        cases h
      · rw [if_neg hxy] at h
        by_cases hyx : y < x
        · rw [if_pos hyx] at h
          cases h
        · rw [if_neg hyx] at h
          have : x = y := by omega
          rw [this, ih h]

lemma specPrefixCmp_of_take_ne {r p : List Nat} :
    ∀ {L : Nat}, L ≤ r.length → L ≤ p.length →
    bytesCompare (r.take L) (p.take L) ≠ 0 →
    specPrefixCmp r p = bytesCompare (r.take L) (p.take L) := by
  induction r generalizing p with
  | nil =>
    intro L hr hp hne
    simp at hr
    subst hr
    simp [bytesCompare] at hne
  | cons a rs ih =>
    intro L hr hp hne
    cases L with
    | zero => simp [bytesCompare] at hne
    | succ L' =>
      cases p with
      | nil => simp at hp
      | cons b ps =>
        simp only [List.take_succ_cons] at hne ⊢
        rw [bytesCompare] at hne ⊢
        rw [specPrefixCmp]
        by_cases hab : a < b
        · rw [if_pos hab, if_pos hab]
        · rw [if_neg hab, if_neg hab]
          by_cases hba : b < a
          · rw [if_pos hba, if_pos hba]
          · rw [if_neg hba, if_neg hba]
            rw [if_neg hab, if_neg hba] at hne
            exact ih (by simpa using hr) (by simpa using hp) hne

lemma specPrefixCmp_short {r p : List Nat} (hl : r.length < p.length)
    (h : p.take r.length = r) : specPrefixCmp r p = -1 := by
  induction r generalizing p with
  | nil =>
    cases p with
    | nil => simp at hl
    | cons b ps => rfl
  | cons a rs ih =>
    cases p with
    | nil => simp at hl
    | cons b ps =>
      simp only [List.length_cons, List.take_succ_cons, List.cons.injEq] at h
      obtain ⟨hba, h2⟩ := h
      rw [specPrefixCmp, hba, if_neg (lt_irrefl a), if_neg (lt_irrefl a)]
      exact ih (by simpa using hl) h2

lemma specPrefixCmp_decomp {r p : List Nat} {n : Nat} (hn : n ≤ r.length)
    (hnp : n ≤ p.length)
    (h0 : bytesCompare (r.take n) (p.take n) = 0) :
    specPrefixCmp r p = specPrefixCmp (r.drop n) (p.drop n) := by
  have heq : r.take n = p.take n := bytesCompare_eq_zero h0
  have hre : specPrefixCmp r p
      = specPrefixCmp (r.take n ++ r.drop n) (p.take n ++ p.drop n) := by
    rw [List.take_append_drop, List.take_append_drop]
  rw [hre, heq, specPrefixCmp_common]

lemma cepLoop_pre_nil (e : List Nat) : cepLoop e [] = (0, none) := by
  rw [cepLoop.eq_def, if_pos rfl]

lemma cep_step_terminal_nil {l : List Nat}
    (h1 : findDelimiter l maxRemainingRun < maxRemainingRun)
    (h2 : l.drop (findDelimiter l maxRemainingRun) = []) (q : List Nat) :
    cepLoop (encodeLoop l) q = (specPrefixCmp l q, none) := by
  have hlen := findDelimiter_le_length l maxRemainingRun
  have hn : findDelimiter l maxRemainingRun = l.length := by
    have := List.drop_eq_nil_iff.mp h2
    omega
  have hchunk : l.take (findDelimiter l maxRemainingRun) = l :=
    List.take_of_length_le (by omega)
  by_cases hq : q = []
  · subst hq
    rw [cepLoop_pre_nil, specPrefixCmp_nil_right]
  · rw [encodeLoop_eq_terminal_nil h1 h2, cepLoop.eq_def, if_neg hq]
    simp only [checkPrefix]
    rw [Nat.mod_add_div]
    simp only [hchunk]
    rw [if_neg (by omega : ¬ findDelimiter l maxRemainingRun > maxRemainingRun),
      if_neg (by omega : ¬ l.length < findDelimiter l maxRemainingRun)]
    by_cases hcp : bytesCompare (l.take (min l.length q.length))
        (q.take (min l.length q.length)) = 0
    · rw [if_neg (not_not_intro hcp), if_pos h1]
      by_cases hp2 : q.drop (min l.length q.length) = []
      · rw [if_pos hp2]
        have hql : q.length ≤ l.length := by
          have := List.drop_eq_nil_iff.mp hp2
          omega
        have hLq : min l.length q.length = q.length := by omega
        rw [hLq, List.take_length] at hcp
        have heq : l.take q.length = q := bytesCompare_eq_zero hcp
        rw [show specPrefixCmp l q = 0 from
          (specPrefixCmp_eq_zero_iff _ _).mpr (heq ▸ List.take_prefix _ _)]
      · rw [if_neg hp2, if_pos h2]
        have hql : l.length < q.length := by
          have hcon : ¬ q.length ≤ min l.length q.length :=
            fun hh => hp2 (List.drop_eq_nil_iff.mpr (by omega))
          omega
        have hLl : min l.length q.length = l.length := by omega
        rw [hLl, List.take_length] at hcp
        have heq : q.take l.length = l := (bytesCompare_eq_zero hcp).symm
        rw [show specPrefixCmp l q = -1 from specPrefixCmp_short hql heq]
    · rw [if_pos hcp]
      rw [specPrefixCmp_of_take_ne (Nat.min_le_left _ _) (Nat.min_le_right _ _)
        hcp]

lemma cep_step_terminal_cons {l : List Nat}
    (h1 : findDelimiter l maxRemainingRun < maxRemainingRun)
    (h2 : l.drop (findDelimiter l maxRemainingRun) ≠ [])
    (ih : ∀ q' : List Nat,
      cepLoop (encodeLoop (l.drop (findDelimiter l maxRemainingRun + 2))) q'
        = (specPrefixCmp (l.drop (findDelimiter l maxRemainingRun + 2)) q', none))
    (q : List Nat) :
    cepLoop (encodeLoop l) q = (specPrefixCmp l q, none) := by
  have hlen := findDelimiter_le_length l maxRemainingRun
  have hck : (l.take (findDelimiter l maxRemainingRun)).length
      = findDelimiter l maxRemainingRun := chunk_length
  have hne : findDelimiter l maxRemainingRun < l.length := by
    have hpos : 0 < (l.drop (findDelimiter l maxRemainingRun)).length :=
      List.length_pos.mpr h2
    simp only [List.length_drop] at hpos
    omega
  have hdel := findDelimiter_rest_delim h1 h2
  by_cases hq : q = []
  · subst hq
    rw [cepLoop_pre_nil, specPrefixCmp_nil_right]
  · rw [encodeLoop_eq_terminal_cons h1 h2, List.drop_drop, cepLoop.eq_def,
      if_neg hq]
    simp only [checkPrefix]
    rw [Nat.mod_add_div]
    rw [if_neg (by omega : ¬ findDelimiter l maxRemainingRun > maxRemainingRun),
      if_neg (by simp only [List.length_append, hck]; omega)]
    simp only [List.take_left' hck, List.drop_left' hck, hck]
    have htt : (l.take (findDelimiter l maxRemainingRun)).take
        (min (findDelimiter l maxRemainingRun) q.length)
        = l.take (min (findDelimiter l maxRemainingRun) q.length) := by
      rw [List.take_take]
      congr 1
      omega
    rw [htt]
    by_cases hcp : bytesCompare
        (l.take (min (findDelimiter l maxRemainingRun) q.length))
        (q.take (min (findDelimiter l maxRemainingRun) q.length)) = 0
    · rw [if_neg (not_not_intro hcp), if_pos h1]
      by_cases hp2 : q.drop (min (findDelimiter l maxRemainingRun) q.length) = []
      · rw [if_pos hp2]
        have hql : q.length ≤ findDelimiter l maxRemainingRun := by
          have := List.drop_eq_nil_iff.mp hp2
          omega
        have hLq : min (findDelimiter l maxRemainingRun) q.length = q.length := by
          omega
        rw [hLq, List.take_length] at hcp
        have heq : l.take q.length = q := bytesCompare_eq_zero hcp
        rw [show specPrefixCmp l q = 0 from
          (specPrefixCmp_eq_zero_iff _ _).mpr (heq ▸ List.take_prefix _ _)]
      · rw [if_neg hp2, if_neg (encodeLoop_ne_nil _)]
        have hql : findDelimiter l maxRemainingRun < q.length := by
          have hcon : ¬ q.length ≤ min (findDelimiter l maxRemainingRun) q.length :=
            fun hh => hp2 (List.drop_eq_nil_iff.mpr (by omega))
          omega
        have hLn : min (findDelimiter l maxRemainingRun) q.length
            = findDelimiter l maxRemainingRun := by omega
        rw [hLn]
        rw [hLn] at hcp
        have hdec := specPrefixCmp_decomp (by omega) (by omega) hcp
        have hdlen : delimiter.length = 2 := rfl
        rw [hdlen]
        have hqn2 : 0 < (q.drop (findDelimiter l maxRemainingRun)).length := by
          simp only [List.length_drop]
          omega
        have htake2 : ∀ L2 : Nat, L2 ≤ 2 →
            (l.drop (findDelimiter l maxRemainingRun)).take L2 = delimiter.take L2 := by
          intro L2 hL2
          rw [hdel]
          interval_cases L2
          · rfl
          · rfl
          · rfl
        by_cases hcp2 : bytesCompare
            (delimiter.take (min 2 (q.drop (findDelimiter l maxRemainingRun)).length))
            ((q.drop (findDelimiter l maxRemainingRun)).take
              (min 2 (q.drop (findDelimiter l maxRemainingRun)).length)) = 0
        · rw [if_neg (not_not_intro hcp2)]
          rcases Nat.lt_or_ge (q.drop (findDelimiter l maxRemainingRun)).length 2
            with hsmall | hbig
          · have hq1 : (q.drop (findDelimiter l maxRemainingRun)).length = 1 := by
              omega
            have hm1 : min 2 (q.drop (findDelimiter l maxRemainingRun)).length = 1 := by
              omega
            rw [hm1] at hcp2 ⊢
            have heq1 : (q.drop (findDelimiter l maxRemainingRun)).take 1
                = [delimiter0] := (bytesCompare_eq_zero hcp2).symm
            have hqeq : q.drop (findDelimiter l maxRemainingRun) = [delimiter0] := by
              have := List.take_of_length_le (by omega :
                (q.drop (findDelimiter l maxRemainingRun)).length ≤ 1)
              rw [← this, heq1]
            rw [hqeq]
            rw [show ([delimiter0] : List Nat).drop 1 = [] from rfl, ih [],
              specPrefixCmp_nil_right, hdec, hqeq]
            rw [show specPrefixCmp (l.drop (findDelimiter l maxRemainingRun))
                [delimiter0] = 0 from (specPrefixCmp_eq_zero_iff _ _).mpr
                (by rw [hdel]
                    exact ⟨delimiter1 :: l.drop (findDelimiter l maxRemainingRun + 2),
                      rfl⟩)]
          · have hm2 : min 2 (q.drop (findDelimiter l maxRemainingRun)).length = 2 := by
              omega
            rw [hm2] at hcp2 ⊢
            have heq2 : (q.drop (findDelimiter l maxRemainingRun)).take 2
                = delimiter := (bytesCompare_eq_zero hcp2).symm
            have hqsplit : q.drop (findDelimiter l maxRemainingRun)
                = delimiter ++ (q.drop (findDelimiter l maxRemainingRun)).drop 2 := by
              conv_lhs => rw [← List.take_append_drop 2
                (q.drop (findDelimiter l maxRemainingRun))]
              rw [heq2]
            have hldel : l.drop (findDelimiter l maxRemainingRun)
                = delimiter ++ l.drop (findDelimiter l maxRemainingRun + 2) := by
              rw [hdel]
              rfl
            have hstep : specPrefixCmp (l.drop (findDelimiter l maxRemainingRun))
                (q.drop (findDelimiter l maxRemainingRun))
                = specPrefixCmp (l.drop (findDelimiter l maxRemainingRun + 2))
                  ((q.drop (findDelimiter l maxRemainingRun)).drop 2) := by
              conv_lhs => rw [hldel, hqsplit]
              exact specPrefixCmp_common _ _ _
            rw [ih, hdec, hstep]
        · rw [if_pos hcp2]
          have hcpd : bytesCompare
              ((l.drop (findDelimiter l maxRemainingRun)).take
                (min 2 (q.drop (findDelimiter l maxRemainingRun)).length))
              ((q.drop (findDelimiter l maxRemainingRun)).take
                (min 2 (q.drop (findDelimiter l maxRemainingRun)).length)) ≠ 0 := by
            rw [htake2 _ (Nat.min_le_left _ _)]
            exact hcp2
          have hspec := specPrefixCmp_of_take_ne
            (by rw [hdel]; simp only [List.length_cons]; omega)
            (Nat.min_le_right _ _) hcpd
          rw [hdec, hspec, htake2 _ (Nat.min_le_left _ _)]
    · rw [if_pos hcp]
      rw [specPrefixCmp_of_take_ne (by omega) (Nat.min_le_right _ _) hcp]

lemma cep_step_saturated {l : List Nat}
    (h1 : ¬ findDelimiter l maxRemainingRun < maxRemainingRun)
    (ih : ∀ q' : List Nat,
      cepLoop (encodeLoop (l.drop (findDelimiter l maxRemainingRun))) q'
        = (specPrefixCmp (l.drop (findDelimiter l maxRemainingRun)) q', none))
    (q : List Nat) :
    cepLoop (encodeLoop l) q = (specPrefixCmp l q, none) := by
  have hlen := findDelimiter_le_length l maxRemainingRun
  have hmax := findDelimiter_le_max l maxRemainingRun
  have hck : (l.take (findDelimiter l maxRemainingRun)).length
      = findDelimiter l maxRemainingRun := chunk_length
  by_cases hq : q = []
  · subst hq
    rw [cepLoop_pre_nil, specPrefixCmp_nil_right]
  · rw [encodeLoop_eq_saturated h1, cepLoop.eq_def, if_neg hq]
    simp only [checkPrefix]
    rw [Nat.mod_add_div]
    rw [if_neg (by omega : ¬ findDelimiter l maxRemainingRun > maxRemainingRun),
      if_neg (by simp only [List.length_append, hck]; omega)]
    simp only [List.take_left' hck, List.drop_left' hck, hck]
    have htt : (l.take (findDelimiter l maxRemainingRun)).take
        (min (findDelimiter l maxRemainingRun) q.length)
        = l.take (min (findDelimiter l maxRemainingRun) q.length) := by
      rw [List.take_take]
      congr 1
      omega
    rw [htt]
    by_cases hcp : bytesCompare
        (l.take (min (findDelimiter l maxRemainingRun) q.length))
        (q.take (min (findDelimiter l maxRemainingRun) q.length)) = 0
    · rw [if_neg (not_not_intro hcp), if_neg h1, ih]
      rcases Nat.lt_or_ge (findDelimiter l maxRemainingRun) q.length with hql | hql
      · have hLn : min (findDelimiter l maxRemainingRun) q.length
            = findDelimiter l maxRemainingRun := by omega
        rw [hLn] at hcp ⊢
        rw [specPrefixCmp_decomp (by omega) (by omega) hcp]
      · have hLq : min (findDelimiter l maxRemainingRun) q.length = q.length := by
          omega
        rw [hLq] at hcp ⊢
        rw [List.take_length] at hcp
        have heq : l.take q.length = q := bytesCompare_eq_zero hcp
        rw [List.drop_length, specPrefixCmp_nil_right]
        rw [show specPrefixCmp l q = 0 from
          (specPrefixCmp_eq_zero_iff _ _).mpr (heq ▸ List.take_prefix _ _)]
    · rw [if_pos hcp]
      rw [specPrefixCmp_of_take_ne (by omega) (Nat.min_le_right _ _) hcp]

/-- The comparator loop computes the specification ordering on the raw
record remaining after the initial chunk. -/
lemma cepLoop_encodeLoop (r q : List Nat) :
    cepLoop (encodeLoop r) q = (specPrefixCmp r q, none) := by
  suffices H : ∀ (fuel : Nat) (l : List Nat), l.length ≤ fuel →
      ∀ q', cepLoop (encodeLoop l) q' = (specPrefixCmp l q', none) by
    exact H r.length r le_rfl q
  intro fuel
  induction fuel with
  | zero =>
    intro l hl q'
    have hln : l = [] := by
      cases l with
      | nil => rfl
      | cons a t => simp at hl
    subst hln
    exact cep_step_terminal_nil (by simp [findDelimiter, findDelimIdx])
      (by simp) q'
  | succ fuel ih =>
    intro l hl q'
    have hlen := findDelimiter_le_length l maxRemainingRun
    by_cases h1 : findDelimiter l maxRemainingRun < maxRemainingRun
    · by_cases h2 : l.drop (findDelimiter l maxRemainingRun) = []
      · exact cep_step_terminal_nil h1 h2 q'
      · have hne : findDelimiter l maxRemainingRun < l.length := by
          have hpos : 0 < (l.drop (findDelimiter l maxRemainingRun)).length :=
            List.length_pos.mpr h2
          simp only [List.length_drop] at hpos
          omega
        have hlb : (l.drop (findDelimiter l maxRemainingRun + 2)).length ≤ fuel := by
          simp only [List.length_drop]
          omega
        exact cep_step_terminal_cons h1 h2 (fun q'' => ih _ hlb q'') q'
    · have h1' : maxRemainingRun ≤ findDelimiter l maxRemainingRun :=
        Nat.le_of_not_lt h1
      have hm1 : 1 ≤ maxRemainingRun := by simp
      have hlb : (l.drop (findDelimiter l maxRemainingRun)).length ≤ fuel := by
        simp only [List.length_drop]
        omega
      exact cep_step_saturated h1 (fun q'' => ih _ hlb q'') q'

/-- `CompareEncodedPrefix` on an encoded record computes the specification
ordering between the raw record and the prefix, with no error. -/
lemma CompareEncodedPrefix_Encode (r q : List Nat) :
    CompareEncodedPrefix (Encode r) q = (specPrefixCmp r q, none) := by
  have hlen := findDelimiter_le_length r maxInitialRun
  have hmax := findDelimiter_le_max r maxInitialRun
  have hck : (r.take (findDelimiter r maxInitialRun)).length
      = findDelimiter r maxInitialRun := chunk_length
  by_cases hq : q = []
  · subst hq
    rw [CompareEncodedPrefix.eq_def, if_pos rfl, specPrefixCmp_nil_right]
  · by_cases h1 : findDelimiter r maxInitialRun < maxInitialRun
    · by_cases h2 : r.drop (findDelimiter r maxInitialRun) = []
      · have hn : findDelimiter r maxInitialRun = r.length := by
          have := List.drop_eq_nil_iff.mp h2
          omega
        have hchunk : r.take (findDelimiter r maxInitialRun) = r :=
          List.take_of_length_le (by omega)
        rw [Encode_eq_terminal_nil h1 h2, CompareEncodedPrefix.eq_def,
          if_neg hq]
        simp only [checkPrefix]
        simp only [hchunk]
        rw [if_neg (by omega : ¬ findDelimiter r maxInitialRun > maxInitialRun),
          if_neg (by omega : ¬ r.length < findDelimiter r maxInitialRun)]
        by_cases hcp : bytesCompare (r.take (min r.length q.length))
            (q.take (min r.length q.length)) = 0
        · rw [if_neg (not_not_intro hcp), if_pos h1]
          by_cases hp2 : q.drop (min r.length q.length) = []
          · rw [if_pos hp2]
            have hql : q.length ≤ r.length := by
              have := List.drop_eq_nil_iff.mp hp2
              omega
            have hLq : min r.length q.length = q.length := by omega
            rw [hLq, List.take_length] at hcp
            have heq : r.take q.length = q := bytesCompare_eq_zero hcp
            rw [show specPrefixCmp r q = 0 from
              (specPrefixCmp_eq_zero_iff _ _).mpr (heq ▸ List.take_prefix _ _)]
          · rw [if_neg hp2, if_pos h2]
            have hql : r.length < q.length := by
              have hcon : ¬ q.length ≤ min r.length q.length :=
                fun hh => hp2 (List.drop_eq_nil_iff.mpr (by omega))
              omega
            have hLl : min r.length q.length = r.length := by omega
            rw [hLl, List.take_length] at hcp
            have heq : q.take r.length = r := (bytesCompare_eq_zero hcp).symm
            rw [show specPrefixCmp r q = -1 from specPrefixCmp_short hql heq]
        · rw [if_pos hcp]
          rw [specPrefixCmp_of_take_ne (Nat.min_le_left _ _)
            (Nat.min_le_right _ _) hcp]
      · have hne : findDelimiter r maxInitialRun < r.length := by
          have hpos : 0 < (r.drop (findDelimiter r maxInitialRun)).length :=
            List.length_pos.mpr h2
          simp only [List.length_drop] at hpos
          omega
        have hdel := findDelimiter_rest_delim h1 h2
        rw [Encode_eq_terminal_cons h1 h2, List.drop_drop,
          CompareEncodedPrefix.eq_def, if_neg hq]
        simp only [checkPrefix]
        rw [if_neg (by omega : ¬ findDelimiter r maxInitialRun > maxInitialRun),
          if_neg (by simp only [List.length_append, hck]; omega)]
        simp only [List.take_left' hck, List.drop_left' hck, hck]
        have htt : (r.take (findDelimiter r maxInitialRun)).take
            (min (findDelimiter r maxInitialRun) q.length)
            = r.take (min (findDelimiter r maxInitialRun) q.length) := by
          rw [List.take_take]
          congr 1
          omega
        rw [htt]
        by_cases hcp : bytesCompare
            (r.take (min (findDelimiter r maxInitialRun) q.length))
            (q.take (min (findDelimiter r maxInitialRun) q.length)) = 0
        · rw [if_neg (not_not_intro hcp), if_pos h1]
          by_cases hp2 : q.drop (min (findDelimiter r maxInitialRun) q.length) = []
          · rw [if_pos hp2]
            have hql : q.length ≤ findDelimiter r maxInitialRun := by
              have := List.drop_eq_nil_iff.mp hp2
              omega
            have hLq : min (findDelimiter r maxInitialRun) q.length = q.length := by
              omega
            rw [hLq, List.take_length] at hcp
            have heq : r.take q.length = q := bytesCompare_eq_zero hcp
            rw [show specPrefixCmp r q = 0 from
              (specPrefixCmp_eq_zero_iff _ _).mpr (heq ▸ List.take_prefix _ _)]
          · rw [if_neg hp2, if_neg (encodeLoop_ne_nil _)]
            have hql : findDelimiter r maxInitialRun < q.length := by
              have hcon : ¬ q.length ≤ min (findDelimiter r maxInitialRun) q.length :=
                fun hh => hp2 (List.drop_eq_nil_iff.mpr (by omega))
              omega
            have hLn : min (findDelimiter r maxInitialRun) q.length
                = findDelimiter r maxInitialRun := by omega
            rw [hLn]
            rw [hLn] at hcp
            have hdec := specPrefixCmp_decomp (by omega) (by omega) hcp
            have hdlen : delimiter.length = 2 := rfl
            rw [hdlen]
            have htake2 : ∀ L2 : Nat, L2 ≤ 2 →
                (r.drop (findDelimiter r maxInitialRun)).take L2
                  = delimiter.take L2 := by
              intro L2 hL2
              rw [hdel]
              interval_cases L2
              · rfl
              · rfl
              · rfl
            by_cases hcp2 : bytesCompare
                (delimiter.take (min 2 (q.drop (findDelimiter r maxInitialRun)).length))
                ((q.drop (findDelimiter r maxInitialRun)).take
                  (min 2 (q.drop (findDelimiter r maxInitialRun)).length)) = 0
            · rw [if_neg (not_not_intro hcp2)]
              rcases Nat.lt_or_ge (q.drop (findDelimiter r maxInitialRun)).length 2
                with hsmall | hbig
              · have hq1 : (q.drop (findDelimiter r maxInitialRun)).length = 1 := by
                  have hqn2 : 0 < (q.drop (findDelimiter r maxInitialRun)).length := by
                    simp only [List.length_drop]
                    omega
                  omega
                have hm1 : min 2 (q.drop (findDelimiter r maxInitialRun)).length = 1 := by
                  omega
                rw [hm1] at hcp2 ⊢
                have heq1 : (q.drop (findDelimiter r maxInitialRun)).take 1
                    = [delimiter0] := (bytesCompare_eq_zero hcp2).symm
                have hqeq : q.drop (findDelimiter r maxInitialRun) = [delimiter0] := by
                  have := List.take_of_length_le (by omega :
                    (q.drop (findDelimiter r maxInitialRun)).length ≤ 1)
                  rw [← this, heq1]
                rw [hqeq]
                rw [show ([delimiter0] : List Nat).drop 1 = [] from rfl,
                  cepLoop_encodeLoop, specPrefixCmp_nil_right, hdec, hqeq]
                rw [show specPrefixCmp (r.drop (findDelimiter r maxInitialRun))
                    [delimiter0] = 0 from (specPrefixCmp_eq_zero_iff _ _).mpr
                    (by rw [hdel]
                        exact ⟨delimiter1 :: r.drop (findDelimiter r maxInitialRun + 2),
                          rfl⟩)]
              · have hm2 : min 2 (q.drop (findDelimiter r maxInitialRun)).length = 2 := by
                  omega
                rw [hm2] at hcp2 ⊢
                have heq2 : (q.drop (findDelimiter r maxInitialRun)).take 2
                    = delimiter := (bytesCompare_eq_zero hcp2).symm
                have hqsplit : q.drop (findDelimiter r maxInitialRun)
                    = delimiter ++ (q.drop (findDelimiter r maxInitialRun)).drop 2 := by
                  conv_lhs => rw [← List.take_append_drop 2
                    (q.drop (findDelimiter r maxInitialRun))]
                  rw [heq2]
                have hldel : r.drop (findDelimiter r maxInitialRun)
                    = delimiter ++ r.drop (findDelimiter r maxInitialRun + 2) := by
                  rw [hdel]
                  rfl
                have hstep : specPrefixCmp (r.drop (findDelimiter r maxInitialRun))
                    (q.drop (findDelimiter r maxInitialRun))
                    = specPrefixCmp (r.drop (findDelimiter r maxInitialRun + 2))
                      ((q.drop (findDelimiter r maxInitialRun)).drop 2) := by
                  conv_lhs => rw [hldel, hqsplit]
                  exact specPrefixCmp_common _ _ _
                rw [cepLoop_encodeLoop, hdec, hstep]
            · rw [if_pos hcp2]
              have hcpd : bytesCompare
                  ((r.drop (findDelimiter r maxInitialRun)).take
                    (min 2 (q.drop (findDelimiter r maxInitialRun)).length))
                  ((q.drop (findDelimiter r maxInitialRun)).take
                    (min 2 (q.drop (findDelimiter r maxInitialRun)).length)) ≠ 0 := by
                rw [htake2 _ (Nat.min_le_left _ _)]
                exact hcp2
              have hspec := specPrefixCmp_of_take_ne
                (by rw [hdel]; simp only [List.length_cons]; omega)
                (Nat.min_le_right _ _) hcpd
              rw [hdec, hspec, htake2 _ (Nat.min_le_left _ _)]
        · rw [if_pos hcp]
          rw [specPrefixCmp_of_take_ne (by omega) (Nat.min_le_right _ _) hcp]
    · rw [Encode_eq_saturated h1, CompareEncodedPrefix.eq_def, if_neg hq]
      simp only [checkPrefix]
      rw [if_neg (by omega : ¬ findDelimiter r maxInitialRun > maxInitialRun),
        if_neg (by simp only [List.length_append, hck]; omega)]
      simp only [List.take_left' hck, List.drop_left' hck, hck]
      have htt : (r.take (findDelimiter r maxInitialRun)).take
          (min (findDelimiter r maxInitialRun) q.length)
          = r.take (min (findDelimiter r maxInitialRun) q.length) := by
        rw [List.take_take]
        congr 1
        omega
      rw [htt]
      by_cases hcp : bytesCompare
          (r.take (min (findDelimiter r maxInitialRun) q.length))
          (q.take (min (findDelimiter r maxInitialRun) q.length)) = 0
      · rw [if_neg (not_not_intro hcp), if_neg h1, cepLoop_encodeLoop]
        rcases Nat.lt_or_ge (findDelimiter r maxInitialRun) q.length with hql | hql
        · have hLn : min (findDelimiter r maxInitialRun) q.length
              = findDelimiter r maxInitialRun := by omega
          rw [hLn] at hcp ⊢
          rw [specPrefixCmp_decomp (by omega) (by omega) hcp]
        · have hLq : min (findDelimiter r maxInitialRun) q.length = q.length := by
            omega
          rw [hLq] at hcp ⊢
          rw [List.take_length] at hcp
          have heq : r.take q.length = q := bytesCompare_eq_zero hcp
          rw [List.drop_length, specPrefixCmp_nil_right]
          rw [show specPrefixCmp r q = 0 from
            (specPrefixCmp_eq_zero_iff _ _).mpr (heq ▸ List.take_prefix _ _)]
      · rw [if_pos hcp]
        rw [specPrefixCmp_of_take_ne (by omega) (Nat.min_le_right _ _) hcp]

/-- The Go `RecordBuilder.EncodeWithOffsets`, modelled on the builder's
record-index list: each entry carries its `originalIndex` and the raw bytes
of the record (`records[index.start:index.end]`); `dest` is the content of
the destination buffer and `offsets` the offsets array being filled in.
Each step records `dest.Len()` at `offsets[originalIndex]`, then appends the
encoded record and a delimiter to `dest`. -/
def EncodeWithOffsets :
    List (Nat × List Nat) → List Nat → List Nat → List Nat × List Nat
  | [], dest, offsets => (dest, offsets)
  | (oi, r) :: rest, dest, offsets =>
    EncodeWithOffsets rest (dest ++ (Encode r ++ delimiter))
      (offsets.set oi dest.length)

lemma ewo_length : ∀ (entries : List (Nat × List Nat)) (dest offsets : List Nat),
    (EncodeWithOffsets entries dest offsets).2.length = offsets.length := by
  intro entries
  induction entries with
  | nil => intro dest offsets; rfl
  | cons hd rest ih =>
    intro dest offsets
    obtain ⟨oi, r⟩ := hd
    rw [EncodeWithOffsets, ih, List.length_set]

lemma ewo_preserve : ∀ (entries : List (Nat × List Nat)) (dest offsets : List Nat)
    (j : Nat), j ∉ entries.map Prod.fst →
    (EncodeWithOffsets entries dest offsets).2[j]? = offsets[j]? := by
  intro entries
  induction entries with
  | nil => intro dest offsets j _; rfl
  | cons hd rest ih =>
    intro dest offsets j hj
    obtain ⟨oi, r⟩ := hd
    simp only [List.map_cons, List.mem_cons] at hj
    push_neg at hj
    rw [EncodeWithOffsets, ih _ _ _ hj.2, List.getElem?_set_ne (Ne.symm hj.1)]

lemma ewo_extends : ∀ (entries : List (Nat × List Nat)) (dest offsets : List Nat),
    ∃ ext, (EncodeWithOffsets entries dest offsets).1 = dest ++ ext := by
  intro entries
  induction entries with
  | nil => intro dest offsets; exact ⟨[], by simp [EncodeWithOffsets]⟩
  | cons hd rest ih =>
    intro dest offsets
    obtain ⟨oi, r⟩ := hd
    rw [EncodeWithOffsets]
    obtain ⟨ext, hext⟩ := ih (dest ++ (Encode r ++ delimiter)) (offsets.set oi dest.length)
    exact ⟨(Encode r ++ delimiter) ++ ext, by rw [hext, List.append_assoc]⟩

lemma ewo_spec : ∀ (entries : List (Nat × List Nat)) (dest offsets : List Nat),
    (∀ p ∈ entries, p.1 < offsets.length) →
    (entries.map Prod.fst).Nodup →
    ∀ p ∈ entries, ∃ t,
      (EncodeWithOffsets entries dest offsets).1.drop
        ((EncodeWithOffsets entries dest offsets).2.getD p.1 0)
        = Encode p.2 ++ (delimiter ++ t) := by
  intro entries
  induction entries with
  | nil =>
    intro dest offsets _ _ p hp
    cases hp
  | cons hd rest ih =>
    intro dest offsets hlt hnd p hp
    obtain ⟨oi, r⟩ := hd
    simp only [List.map_cons, List.nodup_cons] at hnd
    rw [List.mem_cons] at hp
    rcases hp with rfl | hp
    · rw [EncodeWithOffsets]
      have hpre := ewo_preserve rest (dest ++ (Encode r ++ delimiter))
        (offsets.set oi dest.length) oi hnd.1
      have hset : (offsets.set oi dest.length)[oi]? = some dest.length :=
        List.getElem?_set_self (hlt (oi, r) (List.mem_cons_self _ _))
      obtain ⟨ext, hext⟩ := ewo_extends rest (dest ++ (Encode r ++ delimiter))
        (offsets.set oi dest.length)
      refine ⟨ext, ?_⟩
      rw [List.getD_eq_getElem?_getD, hpre, hset]
      simp only [Option.getD_some]
      rw [hext, List.append_assoc, List.drop_left, List.append_assoc]
    · rw [EncodeWithOffsets]
      apply ih
      · intro p' hp'
        rw [List.length_set]
        exact hlt p' (List.mem_cons_of_mem _ hp')
      · exact hnd.2
      · exact hp

/-- Index of the last occurrence of the delimiter pair
(`bytes.LastIndex`, with `-1` rendered as `none`). -/
def findLastDelimIdx : List Nat → Option Nat
  | [] => none
  | [_] => none
  | a :: b :: rest =>
    match findLastDelimIdx (b :: rest) with
    | some i => some (i + 1)
    | none => if a = delimiter0 ∧ b = delimiter1 then some 0 else none

lemma findLastDelimIdx_eq_none_iff (l : List Nat) :
    findLastDelimIdx l = none ↔ ∀ j, ¬ pairAt l j := by
  induction l with
  | nil => simp [findLastDelimIdx]
  | cons a rest ih =>
    cases rest with
    | nil => simp [findLastDelimIdx, pairAt_singleton]
    | cons b rest' =>
      rw [findLastDelimIdx]
      cases hr : findLastDelimIdx (b :: rest') with
      | some i =>
        simp only [reduceCtorEq, false_iff]
        push_neg
        obtain ⟨j, hj⟩ : ∃ j, pairAt (b :: rest') j := by
          by_contra hc
          push_neg at hc
          rw [ih.mpr hc] at hr
          cases hr
        exact ⟨j + 1, (pairAt_cons_succ a _ j).mpr hj⟩
      | none =>
        have hr' := ih.mp hr
        by_cases hab : a = delimiter0 ∧ b = delimiter1
        · rw [if_pos hab]
          simp only [reduceCtorEq, false_iff]
          push_neg
          exact ⟨0, (pairAt_cons_zero a b rest').mpr hab⟩
        · rw [if_neg hab]
          simp only [true_iff]
          intro j
          rcases j with _ | j
          · rw [pairAt_cons_zero]
            exact hab
          · rw [pairAt_cons_succ]
            exact hr' j

lemma findLastDelimIdx_eq_some_iff (l : List Nat) (i : Nat) :
    findLastDelimIdx l = some i ↔ pairAt l i ∧ ∀ j, pairAt l j → j ≤ i := by
  induction l generalizing i with
  | nil => simp [findLastDelimIdx]
  | cons a rest ih =>
    cases rest with
    | nil =>
      simp only [findLastDelimIdx, reduceCtorEq, false_iff, not_and]
      intro h
      exact absurd h (pairAt_singleton a i)
    | cons b rest' =>
      rw [findLastDelimIdx]
      cases hr : findLastDelimIdx (b :: rest') with
      | some k =>
        obtain ⟨hk, hkmax⟩ := (ih k).mp hr
        constructor
        · rintro h
          cases h
          refine ⟨(pairAt_cons_succ a _ k).mpr hk, ?_⟩
          intro j hj
          rcases j with _ | j
          · omega
          · rw [pairAt_cons_succ] at hj
            have := hkmax j hj
            omega
        · rintro ⟨hp, hmax⟩
          rcases i with _ | i
          · exfalso
            have := hmax (k + 1) ((pairAt_cons_succ a _ k).mpr hk)
            omega
          · rw [pairAt_cons_succ] at hp
            have h1 := hkmax i hp
            have h2 := hmax (k + 1) ((pairAt_cons_succ a _ k).mpr hk)
            have : i = k := by omega
            subst this
            rfl
      | none =>
        rw [findLastDelimIdx_eq_none_iff] at hr
        by_cases hab : a = delimiter0 ∧ b = delimiter1
        · rw [if_pos hab]
          constructor
          · rintro h
            cases h
            refine ⟨(pairAt_cons_zero a b rest').mpr hab, ?_⟩
            intro j hj
            rcases j with _ | j
            · rfl
            · rw [pairAt_cons_succ] at hj
              exact absurd hj (hr j)
          · rintro ⟨hp, hmax⟩
            rcases i with _ | i
            · rfl
            · rw [pairAt_cons_succ] at hp
              exact absurd hp (hr i)
        · rw [if_neg hab]
          simp only [reduceCtorEq, false_iff, not_and]
          intro hp
          rcases i with _ | i
          · exact absurd ((pairAt_cons_zero a b rest').mp hp) hab
          · rw [pairAt_cons_succ] at hp
            exact absurd hp (hr i)

lemma findLastDelimIdx_some_le {l : List Nat} {i : Nat}
    (h : findLastDelimIdx l = some i) : i + 2 ≤ l.length := by
  obtain ⟨hp, _⟩ := (findLastDelimIdx_eq_some_iff l i).mp h
  obtain ⟨h1, h2⟩ := hp
  obtain ⟨hlt, -⟩ := List.getElem?_eq_some.mp h2
  omega

/-- The slice `l[a:b]` of a byte buffer. -/
def slice (l : List Nat) (a b : Nat) : List Nat := (l.drop a).take (b - a)

lemma pairAt_slice {l : List Nat} {a b i : Nat} :
    pairAt (slice l a b) i ↔ i + 1 < b - a ∧ pairAt l (a + i) := by
  unfold slice
  rw [pairAt_take, pairAt_drop]

lemma slice_nonempty {l : List Nat} {a b : Nat} (h : slice l a b ≠ []) :
    a < b := by
  by_contra hc
  apply h
  unfold slice
  rw [show b - a = 0 by omega]
  rfl

lemma slice_length (l : List Nat) (a b : Nat) :
    (slice l a b).length = min (b - a) (l.length - a) := by
  unfold slice
  simp

lemma take2_eq_delimiter_iff_pairAt (s : List Nat) :
    s.take 2 = delimiter ↔ pairAt s 0 := by
  cases s with
  | nil => simp [delimiter, pairAt]
  | cons a t =>
    cases t with
    | nil =>
      simp only [List.take_succ_cons, List.take_nil, delimiter]
      constructor
      · intro h
        cases h
      · intro h
        exact absurd h (pairAt_singleton a 0)
    | cons b t' =>
      show [a, b] = delimiter ↔ _
      rw [pairAt_cons_zero]
      unfold delimiter
      constructor
      · intro h
        injection h with h1 h2
        injection h2 with h2 _
        exact ⟨h1, h2⟩
      · rintro ⟨rfl, rfl⟩
        rfl

/-- Stripping leading delimiter pairs from the window `[mn, mx)`
(the `bytes.HasPrefix` loops of `FindRecordsWithPrefix`). -/
def stripLeadingIdx (l : List Nat) (mn mx : Nat) : Nat :=
  if h : (slice l mn mx).take 2 = delimiter then stripLeadingIdx l (mn + 2) mx
  else mn
termination_by mx - mn
decreasing_by
  have h2 := congrArg List.length h
  simp only [List.length_take, slice_length, delimiter, List.length_cons,
    List.length_nil] at h2
  omega

/-- Stripping trailing delimiter pairs from the window `[mn, mx)`
(the `bytes.HasSuffix` loops of `FindRecordsWithPrefix`). -/
def stripTrailingIdx (l : List Nat) (mn mx : Nat) : Nat :=
  if h : (slice l mn mx).drop ((slice l mn mx).length - 2) = delimiter then
    stripTrailingIdx l mn (mx - 2)
  else mx
termination_by mx
decreasing_by
  have h2 := congrArg List.length h
  simp only [List.length_drop, slice_length, delimiter, List.length_cons,
    List.length_nil] at h2
  omega

/-- Stripping leading delimiter pairs from position `i` to the end of the
buffer (the unbounded `bytes.HasPrefix` loops in phase 2). -/
def stripLeadingInf (l : List Nat) (i : Nat) : Nat :=
  if h : (l.drop i).take 2 = delimiter then stripLeadingInf l (i + 2) else i
termination_by l.length - i
decreasing_by
  have h2 := congrArg List.length h
  simp only [List.length_take, List.length_drop, delimiter, List.length_cons,
    List.length_nil] at h2
  omega

lemma stripLeadingIdx_ge (l : List Nat) (mn mx : Nat) :
    mn ≤ stripLeadingIdx l mn mx := by
  suffices H : ∀ (fuel mn mx : Nat), mx - mn ≤ fuel →
      mn ≤ stripLeadingIdx l mn mx by
    exact H (mx - mn) mn mx le_rfl
  intro fuel
  induction fuel with
  | zero =>
    intro mn mx hf
    rw [stripLeadingIdx, dif_neg]
    intro h
    have h2 := congrArg List.length h
    simp only [List.length_take, slice_length, delimiter, List.length_cons,
      List.length_nil] at h2
    omega
  | succ fuel ih =>
    intro mn mx hf
    rw [stripLeadingIdx]
    split
    · rename_i h
      have h2 := congrArg List.length h
      simp only [List.length_take, slice_length, delimiter, List.length_cons,
        List.length_nil] at h2
      have := ih (mn + 2) mx (by omega)
      omega
    · exact le_refl mn

lemma stripTrailingIdx_le (l : List Nat) (mn mx : Nat) :
    stripTrailingIdx l mn mx ≤ mx := by
  suffices H : ∀ (fuel mn mx : Nat), mx ≤ fuel →
      stripTrailingIdx l mn mx ≤ mx by
    exact H mx mn mx le_rfl
  intro fuel
  induction fuel with
  | zero =>
    intro mn mx hf
    rw [stripTrailingIdx, dif_neg]
    intro h
    have h2 := congrArg List.length h
    simp only [List.length_drop, slice_length, delimiter, List.length_cons,
      List.length_nil] at h2
    omega
  | succ fuel ih =>
    intro mn mx hf
    rw [stripTrailingIdx]
    split
    · rename_i h
      have h2 := congrArg List.length h
      simp only [List.length_drop, slice_length, delimiter, List.length_cons,
        List.length_nil] at h2
      have := ih mn (mx - 2) (by omega)
      omega
    · exact le_refl mx

lemma stripLeadingInf_ge (l : List Nat) (i : Nat) : i ≤ stripLeadingInf l i := by
  suffices H : ∀ (fuel i : Nat), l.length - i ≤ fuel →
      i ≤ stripLeadingInf l i by
    exact H (l.length - i) i le_rfl
  intro fuel
  induction fuel with
  | zero =>
    intro i hf
    rw [stripLeadingInf, dif_neg]
    intro h
    have h2 := congrArg List.length h
    simp only [List.length_take, List.length_drop, delimiter, List.length_cons,
      List.length_nil] at h2
    omega
  | succ fuel ih =>
    intro i hf
    rw [stripLeadingInf]
    split
    · rename_i h
      have h2 := congrArg List.length h
      simp only [List.length_take, List.length_drop, delimiter, List.length_cons,
        List.length_nil] at h2
      have := ih (i + 2) (by omega)
      omega
    · exact le_refl i

lemma stripLeadingInf_step {l : List Nat} {i : Nat}
    (h : (l.drop i).take 2 = delimiter) :
    stripLeadingInf l i = stripLeadingInf l (i + 2) := by
  rw [stripLeadingInf, dif_pos h]

/-- The record start chosen by phase 1 of `FindRecordsWithPrefix`: just
after the last delimiter pair fully inside `[mn, mid)`, or `mn` when there
is none. -/
def recordStartAt (l : List Nat) (mn mid : Nat) : Nat :=
  match findLastDelimIdx (slice l mn mid) with
  | none => mn
  | some i => mn + i + 2

/-- The record end chosen by phase 1 of `FindRecordsWithPrefix`: the first
delimiter pair at or after the record start within `[rs, mx)`, or `mx` when
there is none. -/
def recordEndAt (l : List Nat) (rs mx : Nat) : Nat :=
  match findDelimIdx (slice l rs mx) with
  | none => mx
  | some i => rs + i

lemma recordStartAt_ge (l : List Nat) (mn mid : Nat) :
    mn ≤ recordStartAt l mn mid := by
  unfold recordStartAt
  cases h : findLastDelimIdx (slice l mn mid) with
  | none => exact le_refl mn
  | some i =>
    show mn ≤ mn + i + 2
    omega

lemma recordStartAt_le (l : List Nat) {mn mid : Nat} (h : mn ≤ mid) :
    recordStartAt l mn mid ≤ mid := by
  unfold recordStartAt
  cases hf : findLastDelimIdx (slice l mn mid) with
  | none => exact h
  | some i =>
    show mn + i + 2 ≤ mid
    have h2 := findLastDelimIdx_some_le hf
    rw [slice_length] at h2
    omega

lemma recordEndAt_ge (l : List Nat) (rs mx : Nat) (h : rs ≤ mx) :
    rs ≤ recordEndAt l rs mx := by
  unfold recordEndAt
  cases hf : findDelimIdx (slice l rs mx) with
  | none => exact h
  | some i =>
    show rs ≤ rs + i
    omega

lemma recordEndAt_le (l : List Nat) (rs mx : Nat) (h : rs ≤ mx) :
    recordEndAt l rs mx ≤ mx := by
  unfold recordEndAt
  cases hf : findDelimIdx (slice l rs mx) with
  | none => exact le_refl mx
  | some i =>
    show rs + i ≤ mx
    have h2 := findDelimIdx_some_le hf
    rw [slice_length] at h2
    omega

lemma CompareEncodedPrefix_nil_fst {p : List Nat} {c : Int}
    (h : CompareEncodedPrefix [] p = (c, none)) : c = 0 := by
  by_cases hp : p = []
  · subst hp
    rw [CompareEncodedPrefix.eq_def, if_pos rfl] at h
    cases h
    rfl
  · rw [CompareEncodedPrefix.eq_def, if_neg hp] at h
    simp at h

/-- Phase 1 of `FindRecordsWithPrefix`: binary search for the earliest
matching record.  `ems`/`eme` carry the best match found so far
(`earliestMatchStart`/`earliestMatchEnd`). -/
def phase1 (l P : List Nat) (mn mx ems eme : Nat) :
    Except DecodeError (Nat × Nat) :=
  if h : mn < mx then
    let mid := (mx + mn) / 2
    let rs0 := recordStartAt l mn mid
    let re0 := recordEndAt l rs0 mx
    match hc : CompareEncodedPrefix (slice l rs0 re0) P with
    | (_, some e) => .error e
    | (cmp, none) =>
      if cmp = -1 then phase1 l P (stripLeadingIdx l re0 mx) mx ems eme
      else if cmp = 1 then phase1 l P mn (stripTrailingIdx l mn rs0) ems eme
      else phase1 l P mn (stripTrailingIdx l mn rs0) rs0 re0
  else .ok (ems, eme)
termination_by mx - mn
decreasing_by
  · rename_i hcmp
    have hge := recordStartAt_ge l mn ((mx + mn) / 2)
    have hne : slice l (recordStartAt l mn ((mx + mn) / 2))
        (recordEndAt l (recordStartAt l mn ((mx + mn) / 2)) mx) ≠ [] := by
      intro hnil
      rw [hnil] at hc
      have := CompareEncodedPrefix_nil_fst hc
      omega
    have hlt := slice_nonempty hne
    have hstrip := stripLeadingIdx_ge l
      (recordEndAt l (recordStartAt l mn ((mx + mn) / 2)) mx) mx
    omega
  · have hge := recordStartAt_ge l mn ((mx + mn) / 2)
    have hle := recordStartAt_le l (by omega : mn ≤ (mx + mn) / 2)
    have hstrip := stripTrailingIdx_le l mn
      (recordStartAt l mn ((mx + mn) / 2))
    omega
  · have hge := recordStartAt_ge l mn ((mx + mn) / 2)
    have hle := recordStartAt_le l (by omega : mn ≤ (mx + mn) / 2)
    have hstrip := stripTrailingIdx_le l mn
      (recordStartAt l mn ((mx + mn) / 2))
    omega

/-- Phase 2 of `FindRecordsWithPrefix`: scan forward from the earliest match
until the first non-matching record, returning the end of the last matching
record. -/
def phase2 (l P : List Nat) (stop prevEnd nextStart : Nat) :
    Except DecodeError Nat :=
  if h : nextStart < stop then
    let ne0 := match findDelimIdx (l.drop nextStart) with
      | none => stop
      | some i => nextStart + i
    match EncodedStartsWith (slice l nextStart ne0) P with
    | (_, some e) => .error e
    | (ms, none) =>
      if ms then phase2 l P stop ne0 (stripLeadingInf l ne0)
      else .ok prevEnd
  else .ok prevEnd
termination_by stop - nextStart
decreasing_by
  cases hfd : findDelimIdx (l.drop nextStart) with
  | none =>
    simp only [hfd]
    have hge := stripLeadingInf_ge l stop
    omega
  | some i =>
    simp only [hfd]
    rcases Nat.eq_zero_or_pos i with rfl | hip
    · have hp0 : pairAt (l.drop nextStart) 0 :=
        ((findDelimIdx_eq_some_iff _ _).mp hfd).1
      have hstep := stripLeadingInf_step
        ((take2_eq_delimiter_iff_pairAt _).mpr hp0)
      have hge := stripLeadingInf_ge l (nextStart + 2)
      simp only [Nat.add_zero]
      rw [hstep]
      omega
    · have hge := stripLeadingInf_ge l (nextStart + i)
      omega

/-- The Go `FindRecordsWithPrefix`: binary search over a sorted encoded
stream for the contiguous range of records whose decoded content begins
with the prefix. -/
def FindRecordsWithPrefix (l P : List Nat) : Except DecodeError (List Nat) :=
  let mn0 := stripLeadingIdx l 0 l.length
  let mx0 := stripTrailingIdx l mn0 l.length
  match phase1 l P mn0 mx0 mx0 mn0 with
  | .error e => .error e
  | .ok (ems, eme) =>
    if ems ≥ eme then .ok []
    else
      match phase2 l P mx0 eme (stripLeadingInf l eme) with
      | .error e => .error e
      | .ok prevEnd => .ok (slice l ems prevEnd)

/-- Modelling device for C4: the delimiter-separated stream produced by
encoding each record and appending one delimiter pair after it
(`RecordBuilder.Encode`'s output format). -/
def encodeStream : List (List Nat) → List Nat
  | [] => []
  | r :: rest => Encode r ++ (delimiter ++ encodeStream rest)

/-- Byte length of an encoded stream. -/
def streamLen (rs : List (List Nat)) : Nat := (encodeStream rs).length

/-- Byte offset at which record `i` of the stream begins. -/
def startPos (rs : List (List Nat)) (i : Nat) : Nat := streamLen (rs.take i)

/-- Byte offset at which record `i` of the stream ends (exclusive). -/
def endPos (rs : List (List Nat)) (i : Nat) : Nat :=
  startPos rs i + (Encode (rs.getD i [])).length

lemma encodeStream_append (u v : List (List Nat)) :
    encodeStream (u ++ v) = encodeStream u ++ encodeStream v := by
  induction u with
  | nil => rfl
  | cons r u' ih =>
    simp only [List.cons_append, encodeStream, List.append_eq, ih, List.append_assoc]

lemma streamLen_cons (r : List Nat) (rest : List (List Nat)) :
    streamLen (r :: rest) = (Encode r).length + 2 + streamLen rest := by
  show (Encode r ++ (delimiter ++ encodeStream rest)).length = _
  simp [delimiter, streamLen]
  omega

lemma startPos_zero (rs : List (List Nat)) : startPos rs 0 = 0 := rfl

lemma Encode_length_pos (r : List Nat) : 0 < (Encode r).length :=
  List.length_pos.mpr (Encode_ne_nil r)

lemma startPos_succ {rs : List (List Nat)} {i : Nat} (h : i < rs.length) :
    startPos rs (i + 1) = endPos rs i + 2 := by
  unfold startPos endPos streamLen
  rw [List.take_succ]
  have : rs[i]? = some rs[i] := List.getElem?_eq_some.mpr ⟨h, rfl⟩
  rw [this]
  simp only [Option.toList_some, encodeStream_append]
  unfold startPos streamLen
  simp only [List.length_append]
  have : rs.getD i [] = rs[i] := by
    rw [List.getD_eq_getElem?_getD, List.getElem?_eq_some.mpr ⟨h, rfl⟩]
    rfl
  rw [this]
  simp [encodeStream, delimiter]
  omega

lemma startPos_succ_ge (rs : List (List Nat)) (i : Nat) :
    startPos rs i ≤ startPos rs (i + 1) := by
  rcases Nat.lt_or_ge i rs.length with h | h
  · rw [startPos_succ h]
    unfold endPos
    omega
  · unfold startPos
    rw [List.take_of_length_le h, List.take_of_length_le (by omega)]

lemma startPos_mono (rs : List (List Nat)) {i j : Nat} (hij : i ≤ j) :
    startPos rs i ≤ startPos rs j := by
  induction j with
  | zero =>
    have : i = 0 := by omega
    subst this
    exact le_refl _
  | succ j ih =>
    rcases Nat.lt_or_ge i (j + 1) with h | h
    · exact le_trans (ih (by omega)) (startPos_succ_ge rs j)
    · have : i = j + 1 := by omega
      subst this
      exact le_refl _

lemma startPos_lt_endPos {rs : List (List Nat)} {i : Nat} (h : i < rs.length) :
    startPos rs i < endPos rs i := by
  unfold endPos
  have : rs.getD i [] = rs[i] := by
    rw [List.getD_eq_getElem?_getD, List.getElem?_eq_some.mpr ⟨h, rfl⟩]
    rfl
  rw [this]
  have := Encode_length_pos rs[i]
  omega

lemma startPos_length (rs : List (List Nat)) :
    startPos rs rs.length = (encodeStream rs).length := by
  unfold startPos streamLen
  rw [List.take_length]

lemma endPos_lt_endPos {rs : List (List Nat)} {i j : Nat} (hij : i < j)
    (hj : j < rs.length) : endPos rs i + 2 ≤ endPos rs j := by
  have h1 : startPos rs (i + 1) ≤ startPos rs j := startPos_mono rs (by omega)
  rw [startPos_succ (by omega)] at h1
  have h2 := startPos_lt_endPos hj
  omega

lemma endPos_le_length {rs : List (List Nat)} {i : Nat} (h : i < rs.length) :
    endPos rs i + 2 ≤ (encodeStream rs).length := by
  have h1 := startPos_succ h
  have h2 : startPos rs (i + 1) ≤ startPos rs rs.length := startPos_mono rs (by omega)
  rw [startPos_length] at h2
  omega

lemma ge_of_startPos_le_endPos {rs : List (List Nat)} {a j : Nat}
    (hj : j < rs.length) (h : startPos rs a ≤ endPos rs j) : a ≤ j ∨ rs.length < a := by
  by_contra hc
  push_neg at hc
  obtain ⟨hja, han⟩ := hc
  have h1 : startPos rs (j + 1) ≤ startPos rs a := startPos_mono rs (by omega)
  rw [startPos_succ hj] at h1
  omega

/-- Positions of delimiter pairs in an encoded stream are exactly the record
end positions. -/
lemma pairAt_encodeStream (rs : List (List Nat)) (p : Nat) :
    pairAt (encodeStream rs) p ↔ ∃ i, i < rs.length ∧ p = endPos rs i := by
  induction rs generalizing p with
  | nil =>
    simp only [encodeStream, pairAt_nil, false_iff]
    push_neg
    intro i hi
    simp at hi
  | cons r rest ih =>
    have hL := Encode_length_pos r
    have hshape : encodeStream (r :: rest)
        = Encode r ++ (delimiter0 :: delimiter1 :: encodeStream rest) := rfl
    have hez : endPos (r :: rest) 0 = (Encode r).length := by
      unfold endPos startPos streamLen
      simp [encodeStream]
    have hesucc : ∀ i, endPos (r :: rest) (i + 1)
        = (Encode r).length + 2 + endPos rest i := by
      intro i
      unfold endPos startPos streamLen
      rw [List.take_succ_cons]
      simp only [encodeStream_append, List.length_append, List.getD_cons_succ]
      simp [encodeStream, delimiter]
      omega
    rw [hshape]
    constructor
    · rintro ⟨h1, h2⟩
      rcases Nat.lt_or_ge (p + 1) (Encode r).length with hp | hp
      · exfalso
        apply Encode_noPair r p
        refine ⟨?_, ?_⟩
        · rw [List.getElem?_append_left (by omega)] at h1
          exact h1
        · rw [List.getElem?_append_left hp] at h2
          exact h2
      · rcases Nat.lt_or_ge p (Encode r).length with hp2 | hp2
        · exfalso
          rw [List.getElem?_append_right (by omega),
            show p + 1 - (Encode r).length = 0 by omega] at h2
          simp at h2
        · rw [List.getElem?_append_right (by omega)] at h1
          rw [List.getElem?_append_right (by omega)] at h2
          rcases hk : p - (Encode r).length with _ | k
          · refine ⟨0, by simp, ?_⟩
            rw [hez]
            omega
          · rcases k with _ | k'
            · exfalso
              rw [hk] at h1
              simp at h1
            · have h1' : (encodeStream rest)[k']? = some delimiter0 := by
                rw [hk] at h1
                simpa using h1
              have h2' : (encodeStream rest)[k' + 1]? = some delimiter1 := by
                rw [show p + 1 - (Encode r).length = k' + 3 by omega] at h2
                simpa using h2
              obtain ⟨i, hi, hpi⟩ := (ih k').mp ⟨h1', h2'⟩
              refine ⟨i + 1, by simp; omega, ?_⟩
              rw [hesucc i]
              omega
    · rintro ⟨i, hi, rfl⟩
      rcases i with _ | i
      · rw [hez]
        refine ⟨?_, ?_⟩
        · rw [List.getElem?_append_right (le_refl _), Nat.sub_self]
          simp
        · rw [List.getElem?_append_right (by omega),
            show (Encode r).length + 1 - (Encode r).length = 1 by omega]
          simp
      · have hi' : i < rest.length := by
          simp at hi
          omega
        obtain ⟨h1, h2⟩ := (ih (endPos rest i)).mpr ⟨i, hi', rfl⟩
        rw [hesucc i]
        refine ⟨?_, ?_⟩
        · rw [List.getElem?_append_right (by omega),
            show (Encode r).length + 2 + endPos rest i - (Encode r).length
              = endPos rest i + 2 by omega]
          simpa using h1
        · rw [List.getElem?_append_right (by omega),
            show (Encode r).length + 2 + endPos rest i + 1 - (Encode r).length
              = endPos rest i + 3 by omega]
          simpa using h2

lemma rs_getD_eq {rs : List (List Nat)} {i : Nat} (h : i < rs.length) :
    rs.getD i [] = rs[i] := by
  rw [List.getD_eq_getElem?_getD, List.getElem?_eq_some.mpr ⟨h, rfl⟩]
  rfl

lemma not_pairAt_startPos (rs : List (List Nat)) {c : Nat} (hc : c ≤ rs.length) :
    ¬ pairAt (encodeStream rs) (startPos rs c) := by
  rw [pairAt_encodeStream]
  rintro ⟨j, hj, hpj⟩
  rcases Nat.lt_or_ge j c with h | h
  · have hm := startPos_mono rs (show j + 1 ≤ c from h)
    rw [startPos_succ hj] at hm
    omega
  · have h1 := startPos_mono rs h
    have h2 := startPos_lt_endPos hj
    omega

lemma slice_append_mid (x y z : List Nat) :
    slice (x ++ (y ++ z)) x.length (x.length + y.length) = y := by
  unfold slice
  rw [List.drop_left, Nat.add_sub_cancel_left, List.take_left]

lemma encodeStream_decomp {rs : List (List Nat)} {i : Nat} (h : i < rs.length) :
    encodeStream rs = encodeStream (rs.take i)
      ++ (Encode rs[i] ++ (delimiter ++ encodeStream (rs.drop (i + 1)))) := by
  conv_lhs => rw [← List.take_append_drop i rs]
  rw [encodeStream_append]
  congr 1
  rw [List.drop_eq_getElem_cons h]
  rfl

lemma slice_record {rs : List (List Nat)} {i : Nat} (h : i < rs.length) :
    slice (encodeStream rs) (startPos rs i) (endPos rs i) = Encode rs[i] := by
  have hsp : startPos rs i = (encodeStream (rs.take i)).length := rfl
  have hep : endPos rs i = (encodeStream (rs.take i)).length + (Encode rs[i]).length := by
    unfold endPos
    rw [rs_getD_eq h]
    rfl
  rw [encodeStream_decomp h, hsp, hep]
  exact slice_append_mid _ _ _

lemma recordEndAt_startPos {rs : List (List Nat)} {c b : Nat} (hcb : c ≤ b)
    (hb : b < rs.length) :
    recordEndAt (encodeStream rs) (startPos rs c) (endPos rs b) = endPos rs c := by
  unfold recordEndAt
  have hce := startPos_lt_endPos (show c < rs.length by omega)
  rcases Nat.lt_or_ge c b with hlt | hge
  · have hpair : pairAt (encodeStream rs) (endPos rs c) :=
      (pairAt_encodeStream rs _).mpr ⟨c, by omega, rfl⟩
    have hgap := endPos_lt_endPos hlt hb
    have hfind : findDelimIdx (slice (encodeStream rs) (startPos rs c) (endPos rs b))
        = some (endPos rs c - startPos rs c) := by
      rw [findDelimIdx_eq_some_iff]
      refine ⟨?_, ?_⟩
      · rw [pairAt_slice]
        refine ⟨by omega, ?_⟩
        rw [show startPos rs c + (endPos rs c - startPos rs c) = endPos rs c by omega]
        exact hpair
      · intro j hj hcontra
        rw [pairAt_slice] at hcontra
        obtain ⟨hjr, hjp⟩ := hcontra
        obtain ⟨q, hq, hqe⟩ := (pairAt_encodeStream rs _).mp hjp
        have hcq : c ≤ q := by
          rcases ge_of_startPos_le_endPos (a := c) hq (by omega) with h | h
          · exact h
          · omega
        have hle : endPos rs c ≤ endPos rs q := by
          rcases Nat.eq_or_lt_of_le hcq with rfl | hlt2
          · exact le_refl _
          · have := endPos_lt_endPos hlt2 hq
            omega
        omega
    rw [hfind]
    show startPos rs c + (endPos rs c - startPos rs c) = endPos rs c
    omega
  · have hcb' : c = b := by omega
    subst hcb'
    have hfind : findDelimIdx (slice (encodeStream rs) (startPos rs c) (endPos rs c))
        = none := by
      rw [findDelimIdx_eq_none_iff]
      intro j hj
      rw [pairAt_slice] at hj
      obtain ⟨hjr, hjp⟩ := hj
      obtain ⟨q, hq, hqe⟩ := (pairAt_encodeStream rs _).mp hjp
      have hcq : c ≤ q := by
        rcases ge_of_startPos_le_endPos (a := c) hq (by omega) with h | h
        · exact h
        · omega
      have hle : endPos rs c ≤ endPos rs q := by
        rcases Nat.eq_or_lt_of_le hcq with rfl | hlt2
        · exact le_refl _
        · have := endPos_lt_endPos hlt2 hq
          omega
      omega
    rw [hfind]

lemma recordStartAt_locate {rs : List (List Nat)} {a b mid : Nat} (hab : a ≤ b)
    (hb : b < rs.length) (h1 : startPos rs a ≤ mid) (h2 : mid < endPos rs b) :
    ∃ c, a ≤ c ∧ c ≤ b ∧
      recordStartAt (encodeStream rs) (startPos rs a) mid = startPos rs c := by
  unfold recordStartAt
  cases hf : findLastDelimIdx (slice (encodeStream rs) (startPos rs a) mid) with
  | none => exact ⟨a, le_refl a, hab, rfl⟩
  | some i =>
    obtain ⟨hp, hmax⟩ := (findLastDelimIdx_eq_some_iff _ i).mp hf
    rw [pairAt_slice] at hp
    obtain ⟨hir, hip⟩ := hp
    obtain ⟨j, hj, hje⟩ := (pairAt_encodeStream rs _).mp hip
    have haj : a ≤ j := by
      rcases ge_of_startPos_le_endPos (a := a) hj (by omega) with h | h
      · exact h
      · omega
    refine ⟨j + 1, by omega, ?_, ?_⟩
    · by_contra hc
      push_neg at hc
      have hmono : startPos rs (b + 1) ≤ startPos rs (j + 1) := startPos_mono rs (by omega)
      rw [startPos_succ hb, startPos_succ hj] at hmono
      omega
    · show startPos rs a + i + 2 = startPos rs (j + 1)
      rw [startPos_succ hj]
      omega

lemma locate_record {rs : List (List Nat)} {a b mid : Nat} (hab : a ≤ b)
    (hb : b < rs.length) (h1 : startPos rs a ≤ mid) (h2 : mid < endPos rs b) :
    ∃ c, a ≤ c ∧ c ≤ b ∧
      recordStartAt (encodeStream rs) (startPos rs a) mid = startPos rs c ∧
      recordEndAt (encodeStream rs) (startPos rs c) (endPos rs b) = endPos rs c := by
  obtain ⟨c, hac, hcb, hrs⟩ := recordStartAt_locate hab hb h1 h2
  exact ⟨c, hac, hcb, hrs, recordEndAt_startPos hcb hb⟩

lemma stripLeadingIdx_stop {l : List Nat} {mn mx : Nat} (h : ¬ pairAt l mn) :
    stripLeadingIdx l mn mx = mn := by
  rw [stripLeadingIdx, dif_neg]
  intro hc
  rw [take2_eq_delimiter_iff_pairAt, pairAt_slice] at hc
  exact h (by simpa using hc.2)

lemma stripLeadingIdx_endPos {rs : List (List Nat)} {c b : Nat} (hcb : c < b)
    (hb : b < rs.length) :
    stripLeadingIdx (encodeStream rs) (endPos rs c) (endPos rs b)
      = startPos rs (c + 1) := by
  have hgap := endPos_lt_endPos hcb hb
  have hpair : pairAt (encodeStream rs) (endPos rs c) :=
    (pairAt_encodeStream rs _).mpr ⟨c, by omega, rfl⟩
  have hstep : (slice (encodeStream rs) (endPos rs c) (endPos rs b)).take 2
      = delimiter := by
    rw [take2_eq_delimiter_iff_pairAt, pairAt_slice]
    exact ⟨by omega, by simpa using hpair⟩
  rw [stripLeadingIdx, dif_pos hstep]
  rw [show endPos rs c + 2 = startPos rs (c + 1) from (startPos_succ (by omega)).symm]
  exact stripLeadingIdx_stop (not_pairAt_startPos rs (by omega))

lemma dropSuffix_eq_delimiter_iff (s : List Nat) :
    s.drop (s.length - 2) = delimiter ↔ 2 ≤ s.length ∧ pairAt s (s.length - 2) := by
  constructor
  · intro h
    have hlen := congrArg List.length h
    simp only [List.length_drop, delimiter, List.length_cons, List.length_nil] at hlen
    have h2 : 2 ≤ s.length := by omega
    have h0 := List.getElem?_drop s (s.length - 2) 0
    have h1 := List.getElem?_drop s (s.length - 2) 1
    rw [h] at h0 h1
    refine ⟨h2, ?_, ?_⟩
    · rw [show s.length - 2 = s.length - 2 + 0 by omega, ← h0]
      simp [delimiter]
    · rw [show s.length - 2 + 1 = s.length - 2 + 1 from rfl, ← h1]
      simp [delimiter]
  · rintro ⟨h2, hp1, hp2⟩
    rw [cons2_of_getElem? hp1 hp2, show s.length - 2 + 2 = s.length by omega,
      List.drop_length]
    rfl

lemma stripTrailingIdx_stop {l : List Nat} {mn mx : Nat}
    (h : ¬ (slice l mn mx).drop ((slice l mn mx).length - 2) = delimiter) :
    stripTrailingIdx l mn mx = mx := by
  rw [stripTrailingIdx, dif_neg h]

lemma stripTrailingIdx_endPos {rs : List (List Nat)} {a j : Nat} (haj : a ≤ j)
    (hj : j < rs.length) :
    stripTrailingIdx (encodeStream rs) (startPos rs a) (endPos rs j)
      = endPos rs j := by
  apply stripTrailingIdx_stop
  intro hcontra
  obtain ⟨h2, hp⟩ := (dropSuffix_eq_delimiter_iff _).mp hcontra
  have hsl : (slice (encodeStream rs) (startPos rs a) (endPos rs j)).length
      = endPos rs j - startPos rs a := by
    rw [slice_length]
    have h1 := endPos_le_length hj
    have h3 := startPos_mono rs haj
    have h4 := startPos_lt_endPos hj
    omega
  rw [hsl] at h2 hp
  rw [pairAt_slice] at hp
  obtain ⟨hl, hp2⟩ := hp
  obtain ⟨q, hq, hqe⟩ := (pairAt_encodeStream rs _).mp hp2
  rcases Nat.lt_or_ge q j with hlt | hge
  · have hsu := startPos_succ (show q < rs.length by omega)
    have hmo := startPos_mono rs (show q + 1 ≤ j from hlt)
    have hse := startPos_lt_endPos hj
    omega
  · rcases Nat.eq_or_lt_of_le hge with rfl | hgt
    · omega
    · have := endPos_lt_endPos hgt hq
      omega

lemma stripTrailingIdx_startPos {rs : List (List Nat)} {a c : Nat} (hac : a < c)
    (hc : c ≤ rs.length) :
    stripTrailingIdx (encodeStream rs) (startPos rs a) (startPos rs c)
      = endPos rs (c - 1) := by
  have hc1 : c - 1 < rs.length := by omega
  have hsucc := startPos_succ hc1
  rw [show c - 1 + 1 = c by omega] at hsucc
  have hpair : pairAt (encodeStream rs) (endPos rs (c - 1)) :=
    (pairAt_encodeStream rs _).mpr ⟨c - 1, hc1, rfl⟩
  have hlen : startPos rs c ≤ (encodeStream rs).length := by
    have := startPos_mono rs hc
    rwa [startPos_length] at this
  have hgap : startPos rs a + 1 ≤ endPos rs (c - 1) := by
    have h3 := startPos_mono rs (show a ≤ c - 1 by omega)
    have h4 := startPos_lt_endPos hc1
    omega
  have hsl : (slice (encodeStream rs) (startPos rs a) (startPos rs c)).length
      = startPos rs c - startPos rs a := by
    rw [slice_length]
    omega
  have hstep : (slice (encodeStream rs) (startPos rs a) (startPos rs c)).drop
      ((slice (encodeStream rs) (startPos rs a) (startPos rs c)).length - 2)
      = delimiter := by
    rw [dropSuffix_eq_delimiter_iff, hsl]
    refine ⟨by omega, ?_⟩
    rw [pairAt_slice]
    refine ⟨by omega, ?_⟩
    rw [show startPos rs a + (startPos rs c - startPos rs a - 2)
      = endPos rs (c - 1) by omega]
    exact hpair
  rw [stripTrailingIdx, dif_pos hstep]
  rw [show startPos rs c - 2 = endPos rs (c - 1) by omega]
  exact stripTrailingIdx_endPos (by omega) hc1

lemma stripLeadingInf_endPos {rs : List (List Nat)} {c : Nat} (hc : c < rs.length) :
    stripLeadingInf (encodeStream rs) (endPos rs c) = startPos rs (c + 1) := by
  have hpair : pairAt (encodeStream rs) (endPos rs c) :=
    (pairAt_encodeStream rs _).mpr ⟨c, hc, rfl⟩
  have hstep : ((encodeStream rs).drop (endPos rs c)).take 2 = delimiter := by
    rw [take2_eq_delimiter_iff_pairAt, pairAt_drop]
    simpa using hpair
  rw [stripLeadingInf, dif_pos hstep]
  rw [show endPos rs c + 2 = startPos rs (c + 1) from (startPos_succ hc).symm]
  rw [stripLeadingInf, dif_neg]
  intro hcontra
  rw [take2_eq_delimiter_iff_pairAt, pairAt_drop] at hcontra
  exact not_pairAt_startPos (c := c + 1) rs (by omega) (by simpa using hcontra)

lemma bytesCompare_self (a : List Nat) : bytesCompare a a = 0 := by
  induction a with
  | nil => rfl
  | cons x xs ih =>
    show (if x < x then (-1 : Int) else if x < x then 1 else bytesCompare xs xs) = 0
    rw [if_neg (lt_irrefl x), if_neg (lt_irrefl x)]
    exact ih

lemma specPrefixCmp_trichotomy (r p : List Nat) :
    specPrefixCmp r p = -1 ∨ specPrefixCmp r p = 0 ∨ specPrefixCmp r p = 1 := by
  induction r generalizing p with
  | nil =>
    cases p with
    | nil => right; left; rfl
    | cons b ps => left; rfl
  | cons a rr ih =>
    cases p with
    | nil => right; left; rfl
    | cons b ps =>
      have hs : specPrefixCmp (a :: rr) (b :: ps)
          = if a < b then (-1 : Int) else if b < a then 1
            else specPrefixCmp rr ps := rfl
      rw [hs]
      by_cases h1 : a < b
      · rw [if_pos h1]
        left; rfl
      · rw [if_neg h1]
        by_cases h2 : b < a
        · rw [if_pos h2]
          right; right; rfl
        · rw [if_neg h2]
          exact ih ps

lemma specPrefixCmp_mono_one {x y P : List Nat} (hxy : bytesCompare x y ≤ 0)
    (hx : specPrefixCmp x P = 1) : specPrefixCmp y P = 1 := by
  induction P generalizing x y with
  | nil =>
    rw [specPrefixCmp_nil_right] at hx
    cases hx
  | cons b ps ih =>
    cases x with
    | nil => cases hx
    | cons a xs =>
      cases y with
      | nil =>
        exfalso
        have : bytesCompare (a :: xs) [] = 1 := rfl
        rw [this] at hxy
        omega
      | cons c ys =>
        have hxy' : (if a < c then (-1 : Int) else if c < a then 1
            else bytesCompare xs ys) ≤ 0 := hxy
        have hx' : (if a < b then (-1 : Int) else if b < a then 1
            else specPrefixCmp xs ps) = 1 := hx
        show (if c < b then (-1 : Int) else if b < c then 1
            else specPrefixCmp ys ps) = 1
        by_cases hab : a < b
        · rw [if_pos hab] at hx'
          cases hx'
        · rw [if_neg hab] at hx'
          by_cases hac : a < c
          · -- a ≤ c would suffice; here a < c and b ≤ a < c
            rw [if_neg (by omega), if_pos (by omega)]
          · rw [if_neg hac] at hxy'
            by_cases hca : c < a
            · rw [if_pos hca] at hxy'
              omega
            · rw [if_neg hca] at hxy'
              have hace : a = c := by omega
              subst hace
              by_cases hba : b < a
              · rw [if_neg (by omega), if_pos hba]
              · rw [if_neg hba] at hx'
                have hcb : ¬ a < b := hab
                rw [if_neg hcb, if_neg (by omega)]
                exact ih hxy' hx'

lemma specPrefixCmp_mono_neg {x y P : List Nat} (hxy : bytesCompare x y ≤ 0)
    (hy : specPrefixCmp y P = -1) : specPrefixCmp x P = -1 := by
  induction P generalizing x y with
  | nil =>
    rw [specPrefixCmp_nil_right] at hy
    cases hy
  | cons b ps ih =>
    cases x with
    | nil => rfl
    | cons a xs =>
      cases y with
      | nil =>
        exfalso
        have : bytesCompare (a :: xs) [] = 1 := rfl
        rw [this] at hxy
        omega
      | cons c ys =>
        have hxy' : (if a < c then (-1 : Int) else if c < a then 1
            else bytesCompare xs ys) ≤ 0 := hxy
        have hy' : (if c < b then (-1 : Int) else if b < c then 1
            else specPrefixCmp ys ps) = -1 := hy
        show (if a < b then (-1 : Int) else if b < a then 1
            else specPrefixCmp xs ps) = -1
        by_cases hca : c < a
        · rw [if_pos hca] at hxy'
          omega
        · by_cases hcb : c < b
          · -- c < b and a ≤ c, so a < b
            rw [if_pos (by omega)]
          · rw [if_neg hcb] at hy'
            by_cases hbc : b < c
            · rw [if_pos hbc] at hy'
              cases hy'
            · rw [if_neg hbc] at hy'
              have hbce : b = c := by omega
              by_cases hac : a < c
              · rw [if_pos (by omega)]
              · have hace : a = c := by omega
                subst hace
                rw [if_neg hac] at hxy'
                rw [if_neg hca] at hxy'
                rw [if_neg (by omega), if_neg (by omega)]
                exact ih hxy' hy'

lemma specPrefixCmp_sandwich {x y z P : List Nat} (hxy : bytesCompare x y ≤ 0)
    (hyz : bytesCompare y z ≤ 0) (hx : specPrefixCmp x P = 0)
    (hz : specPrefixCmp z P = 0) : specPrefixCmp y P = 0 := by
  rcases specPrefixCmp_trichotomy y P with h | h | h
  · have := specPrefixCmp_mono_neg hxy h
    omega
  · exact h
  · have := specPrefixCmp_mono_one hyz h
    omega

lemma phase1_step {l P : List Nat} {mn mx rs0 re0 : Nat} (ems eme : Nat)
    (h : mn < mx)
    (hrs : recordStartAt l mn ((mx + mn) / 2) = rs0)
    (hre : recordEndAt l rs0 mx = re0) {cmp : Int}
    (hcep : CompareEncodedPrefix (slice l rs0 re0) P = (cmp, none)) :
    phase1 l P mn mx ems eme =
      if cmp = -1 then phase1 l P (stripLeadingIdx l re0 mx) mx ems eme
      else if cmp = 1 then phase1 l P mn (stripTrailingIdx l mn rs0) ems eme
      else phase1 l P mn (stripTrailingIdx l mn rs0) rs0 re0 := by
  rw [phase1.eq_def, dif_pos h]
  simp only []
  rw [hrs, hre]
  split
  · rename_i x e heq
    rw [hcep] at heq
    simp at heq
  · rename_i cmp2 heq
    rw [hcep] at heq
    injection heq with h1 h2
    subst h1
    rfl

lemma phase1_exit {l P : List Nat} {mn mx ems eme : Nat} (h : ¬ mn < mx) :
    phase1 l P mn mx ems eme = .ok (ems, eme) := by
  rw [phase1.eq_def, dif_neg h]

lemma phase2_step {l P : List Nat} {stop prevEnd nextStart ne : Nat}
    (h : nextStart < stop)
    (hne : (match findDelimIdx (l.drop nextStart) with
      | none => stop | some i => nextStart + i) = ne) {ms : Bool}
    (hesw : EncodedStartsWith (slice l nextStart ne) P = (ms, none)) :
    phase2 l P stop prevEnd nextStart =
      if ms then phase2 l P stop ne (stripLeadingInf l ne)
      else .ok prevEnd := by
  rw [phase2.eq_def, dif_pos h]
  simp only []
  rw [hne]
  split
  · rename_i x e heq
    rw [hesw] at heq
    simp at heq
  · rename_i ms2 heq
    rw [hesw] at heq
    injection heq with h1 h2
    subst h1
    rfl

lemma phase2_exit {l P : List Nat} {stop prevEnd nextStart : Nat}
    (h : ¬ nextStart < stop) :
    phase2 l P stop prevEnd nextStart = .ok prevEnd := by
  rw [phase2.eq_def, dif_neg h]

lemma stripLeadingIdx_empty {l : List Nat} {mn mx : Nat} (h : mx ≤ mn) :
    stripLeadingIdx l mn mx = mn := by
  rw [stripLeadingIdx, dif_neg]
  intro hc
  have h2 := congrArg List.length hc
  simp only [List.length_take, slice_length, delimiter, List.length_cons,
    List.length_nil] at h2
  omega

lemma stripTrailingIdx_empty {l : List Nat} {mn mx : Nat} (h : mx ≤ mn) :
    stripTrailingIdx l mn mx = mx := by
  rw [stripTrailingIdx, dif_neg]
  intro hc
  have h2 := congrArg List.length hc
  simp only [List.length_drop, slice_length, delimiter, List.length_cons,
    List.length_nil] at h2
  omega

lemma slice_record_getD {rs : List (List Nat)} {i : Nat} (h : i < rs.length) :
    slice (encodeStream rs) (startPos rs i) (endPos rs i) = Encode (rs.getD i []) := by
  rw [rs_getD_eq h]
  exact slice_record h

lemma sorted_getD_le {rs : List (List Nat)}
    (hs : rs.Pairwise (fun x y => bytesCompare x y ≤ 0)) {i j : Nat}
    (hij : i ≤ j) (hj : j < rs.length) :
    bytesCompare (rs.getD i []) (rs.getD j []) ≤ 0 := by
  rcases Nat.eq_or_lt_of_le hij with rfl | hlt
  · rw [bytesCompare_self]
  · rw [rs_getD_eq (by omega), rs_getD_eq hj]
    exact List.pairwise_iff_getElem.mp hs i j (by omega) hj hlt

lemma sorted_mono_one {rs : List (List Nat)} {P : List Nat}
    (hs : rs.Pairwise (fun x y => bytesCompare x y ≤ 0)) {i j : Nat}
    (hij : i ≤ j) (hj : j < rs.length)
    (h : specPrefixCmp (rs.getD i []) P = 1) :
    specPrefixCmp (rs.getD j []) P = 1 :=
  specPrefixCmp_mono_one (sorted_getD_le hs hij hj) h

lemma sorted_mono_neg {rs : List (List Nat)} {P : List Nat}
    (hs : rs.Pairwise (fun x y => bytesCompare x y ≤ 0)) {i j : Nat}
    (hij : i ≤ j) (hj : j < rs.length)
    (h : specPrefixCmp (rs.getD j []) P = -1) :
    specPrefixCmp (rs.getD i []) P = -1 :=
  specPrefixCmp_mono_neg (sorted_getD_le hs hij hj) h

/-- Correctness of the binary-search phase of `FindRecordsWithPrefix` on a
sorted encoded stream: it either returns the position of the least matching
record, or reports that no record matches. -/
lemma phase1_spec {rs : List (List Nat)} {P : List Nat}
    (hs : rs.Pairwise (fun x y => bytesCompare x y ≤ 0)) :
    ∀ fuel a b ems eme, endPos rs b - startPos rs a ≤ fuel → a ≤ b →
    b < rs.length →
    (∀ i, i < a → specPrefixCmp (rs.getD i []) P = -1) →
    ((∀ i, b < i → i < rs.length → specPrefixCmp (rs.getD i []) P = 1)
      ∨ (b + 1 < rs.length ∧ specPrefixCmp (rs.getD (b + 1) []) P = 0
          ∧ ems = startPos rs (b + 1) ∧ eme = endPos rs (b + 1))) →
    (∃ m, m < rs.length ∧ specPrefixCmp (rs.getD m []) P = 0
        ∧ (∀ j, j < m → specPrefixCmp (rs.getD j []) P ≠ 0)
        ∧ phase1 (encodeStream rs) P (startPos rs a) (endPos rs b) ems eme
          = .ok (startPos rs m, endPos rs m))
    ∨ ((∀ m, m < rs.length → specPrefixCmp (rs.getD m []) P ≠ 0)
        ∧ phase1 (encodeStream rs) P (startPos rs a) (endPos rs b) ems eme
          = .ok (ems, eme)) := by
  intro fuel
  induction fuel with
  | zero =>
    intro a b ems eme hf hab hb hI1 hbest
    exfalso
    have h1 := startPos_mono rs hab
    have h2 := startPos_lt_endPos hb
    omega
  | succ fuel ih =>
    intro a b ems eme hf hab hb hI1 hbest
    have hmn : startPos rs a < endPos rs b := by
      have h1 := startPos_mono rs hab
      have h2 := startPos_lt_endPos hb
      omega
    obtain ⟨c, hac, hcb, hrs0, hre0⟩ :=
      locate_record hab hb
        (show startPos rs a ≤ (endPos rs b + startPos rs a) / 2 by omega)
        (by omega)
    have hcn : c < rs.length := by omega
    have hcep : CompareEncodedPrefix
        (slice (encodeStream rs) (startPos rs c) (endPos rs c)) P
        = (specPrefixCmp (rs.getD c []) P, none) := by
      rw [slice_record_getD hcn, CompareEncodedPrefix_Encode]
    have hstep := phase1_step ems eme hmn hrs0 hre0 hcep
    rw [hstep]
    have hsuc := startPos_succ hcn
    have hsce := startPos_lt_endPos hcn
    have hsac := startPos_mono rs hac
    have hceb : endPos rs c ≤ endPos rs b := by
      rcases Nat.eq_or_lt_of_le hcb with rfl | h
      · exact le_refl _
      · have := endPos_lt_endPos h hb
        omega
    rcases specPrefixCmp_trichotomy (rs.getD c []) P with hc | hc | hc
    · -- the probed record sorts before the prefix: search the upper half
      rw [if_pos hc]
      have hI1' : ∀ i, i < c + 1 → specPrefixCmp (rs.getD i []) P = -1 := by
        intro i hi
        exact sorted_mono_neg hs (by omega) hcn hc
      rcases Nat.eq_or_lt_of_le hcb with rfl | hclt
      · rw [stripLeadingIdx_empty (le_refl _), phase1_exit (lt_irrefl _)]
        rcases hbest with hbn | ⟨hb1, hbp, hbe1, hbe2⟩
        · right
          refine ⟨?_, rfl⟩
          intro m hm
          rcases Nat.lt_or_ge m (c + 1) with h | h
          · have := hI1' m h
            omega
          · have := hbn m (by omega) hm
            omega
        · left
          refine ⟨c + 1, hb1, hbp, ?_, ?_⟩
          · intro j hj
            have := hI1' j hj
            omega
          · rw [hbe1, hbe2]
      · rw [stripLeadingIdx_endPos hclt hb]
        exact ih (c + 1) b ems eme (by omega) (by omega) hb hI1' hbest
    · -- the probed record matches: remember it and search the lower half
      rw [if_neg (by omega), if_neg (by omega)]
      rcases Nat.eq_or_lt_of_le hac with rfl | halt
      · rw [stripTrailingIdx_empty (le_refl _), phase1_exit (lt_irrefl _)]
        left
        refine ⟨a, hcn, hc, ?_, rfl⟩
        intro j hj
        have := hI1 j hj
        omega
      · rw [stripTrailingIdx_startPos halt (by omega)]
        have hbest' : (∀ i, c - 1 < i → i < rs.length →
              specPrefixCmp (rs.getD i []) P = 1)
            ∨ (c - 1 + 1 < rs.length
                ∧ specPrefixCmp (rs.getD (c - 1 + 1) []) P = 0
                ∧ startPos rs c = startPos rs (c - 1 + 1)
                ∧ endPos rs c = endPos rs (c - 1 + 1)) := by
          right
          rw [show c - 1 + 1 = c by omega]
          exact ⟨hcn, hc, rfl, rfl⟩
        have hres := ih a (c - 1) (startPos rs c) (endPos rs c)
          (by
            have he1 := startPos_succ (show c - 1 < rs.length by omega)
            rw [show c - 1 + 1 = c by omega] at he1
            omega)
          (by omega) (by omega) hI1 hbest'
        rcases hres with ⟨m, hm, hm0, hleast, hr⟩ | ⟨hnm, hr⟩
        · exact Or.inl ⟨m, hm, hm0, hleast, hr⟩
        · exfalso
          exact hnm c hcn hc
    · -- the probed record sorts after the prefix: search the lower half
      rw [if_neg (by omega), if_pos hc]
      have hbn : ∀ i, c - 1 < i → i < rs.length →
          specPrefixCmp (rs.getD i []) P = 1 := by
        intro i hi hi2
        exact sorted_mono_one hs (by omega) hi2 hc
      rcases hbest with hbnold | ⟨hb1, hbp, hbe1, hbe2⟩
      swap
      · exfalso
        have := sorted_mono_one hs (show c ≤ b + 1 by omega) hb1 hc
        omega
      rcases Nat.eq_or_lt_of_le hac with rfl | halt
      · rw [stripTrailingIdx_empty (le_refl _), phase1_exit (lt_irrefl _)]
        right
        refine ⟨?_, rfl⟩
        intro m hm
        rcases Nat.lt_or_ge m a with h | h
        · have := hI1 m h
          omega
        · have := sorted_mono_one hs h hm hc
          omega
      · rw [stripTrailingIdx_startPos halt (by omega)]
        apply ih a (c - 1) ems eme
          (by
            have he1 := startPos_succ (show c - 1 < rs.length by omega)
            rw [show c - 1 + 1 = c by omega] at he1
            omega)
          (by omega) (by omega) hI1 (Or.inl hbn)

lemma findDelimIdx_drop_startPos {rs : List (List Nat)} {c : Nat}
    (hc : c < rs.length) :
    findDelimIdx ((encodeStream rs).drop (startPos rs c))
      = some (endPos rs c - startPos rs c) := by
  have hse := startPos_lt_endPos hc
  rw [findDelimIdx_eq_some_iff]
  constructor
  · rw [pairAt_drop]
    rw [show startPos rs c + (endPos rs c - startPos rs c) = endPos rs c by omega]
    exact (pairAt_encodeStream rs _).mpr ⟨c, hc, rfl⟩
  · intro j hj
    rw [pairAt_drop]
    intro hp
    obtain ⟨q, hq, hqe⟩ := (pairAt_encodeStream rs _).mp hp
    have hcq : c ≤ q := by
      rcases ge_of_startPos_le_endPos (a := c) hq (by omega) with h | h
      · exact h
      · omega
    have hle : endPos rs c ≤ endPos rs q := by
      rcases Nat.eq_or_lt_of_le hcq with rfl | h
      · exact le_refl _
      · have := endPos_lt_endPos h hq
        omega
    omega

/-- Correctness of the forward-scan phase of `FindRecordsWithPrefix`: from a
matching record `k` it runs to the last record of the consecutive matching
run and returns its end position. -/
lemma phase2_spec {rs : List (List Nat)} {P : List Nat} :
    ∀ fuel k, rs.length - k ≤ fuel → k < rs.length →
    ∃ K, k ≤ K ∧ K < rs.length
      ∧ (∀ i, k < i → i ≤ K → specPrefixCmp (rs.getD i []) P = 0)
      ∧ (K = rs.length - 1 ∨ specPrefixCmp (rs.getD (K + 1) []) P ≠ 0)
      ∧ phase2 (encodeStream rs) P (endPos rs (rs.length - 1)) (endPos rs k)
          (stripLeadingInf (encodeStream rs) (endPos rs k)) = .ok (endPos rs K) := by
  intro fuel
  induction fuel with
  | zero =>
    intro k hf hk
    omega
  | succ fuel ih =>
    intro k hf hk
    rw [stripLeadingInf_endPos hk]
    rcases Nat.eq_or_lt_of_le (show k + 1 ≤ rs.length from hk) with hend | hk1
    · -- k is the last record: the scan stops immediately
      refine ⟨k, le_refl k, hk, ?_, ?_, ?_⟩
      · intro i h1 h2
        omega
      · left
        omega
      · apply phase2_exit
        have := startPos_succ (show rs.length - 1 < rs.length by omega)
        rw [show rs.length - 1 + 1 = rs.length by omega] at this
        rw [show k + 1 = rs.length from hend]
        omega
    · -- there is a further record k+1 to examine
      have hk1' : k + 1 < rs.length := hk1
      have hstop : startPos rs (k + 1) < endPos rs (rs.length - 1) := by
        have h1 := startPos_mono rs (show k + 1 ≤ rs.length - 1 by omega)
        have h2 := startPos_lt_endPos (show rs.length - 1 < rs.length by omega)
        omega
      have hse := startPos_lt_endPos hk1'
      have hne : (match findDelimIdx ((encodeStream rs).drop (startPos rs (k + 1))) with
          | none => endPos rs (rs.length - 1)
          | some i => startPos rs (k + 1) + i) = endPos rs (k + 1) := by
        simp only [findDelimIdx_drop_startPos hk1']
        exact Nat.add_sub_cancel' (le_of_lt hse)
      have hesw : EncodedStartsWith
          (slice (encodeStream rs) (startPos rs (k + 1)) (endPos rs (k + 1))) P
          = (specPrefixCmp (rs.getD (k + 1) []) P == 0, none) := by
        unfold EncodedStartsWith
        rw [slice_record_getD hk1', CompareEncodedPrefix_Encode]
      rw [phase2_step hstop hne hesw]
      by_cases hsp : specPrefixCmp (rs.getD (k + 1) []) P = 0
      · rw [if_pos (by rw [hsp]; rfl)]
        obtain ⟨K, hkK, hKn, hmatch, hbound, hres⟩ := ih (k + 1) (by omega) hk1'
        refine ⟨K, by omega, hKn, ?_, hbound, hres⟩
        intro i h1 h2
        rcases Nat.eq_or_lt_of_le (show k + 1 ≤ i by omega) with rfl | h
        · exact hsp
        · exact hmatch i (by omega) h2
      · rw [if_neg (by simp only [beq_iff_eq]; exact hsp)]
        refine ⟨k, le_refl k, hk, ?_, Or.inr hsp, rfl⟩
        intro i h1 h2
        omega

/-- The delimiter-separated join of consecutive records, with no trailing
delimiter: the shape of the sub-buffer `FindRecordsWithPrefix` returns. -/
def joinRecords : List (List Nat) → List Nat
  | [] => []
  | [r] => Encode r
  | r :: rest => Encode r ++ (delimiter ++ joinRecords rest)

lemma encodeStream_eq_joinRecords_append {seg w : List (List Nat)} (h : seg ≠ []) :
    encodeStream (seg ++ w) = joinRecords seg ++ (delimiter ++ encodeStream w) := by
  induction seg with
  | nil => exact absurd rfl h
  | cons r seg2 ih =>
    cases seg2 with
    | nil => rfl
    | cons r2 seg3 =>
      show Encode r ++ (delimiter ++ encodeStream ((r2 :: seg3) ++ w))
          = (Encode r ++ (delimiter ++ joinRecords (r2 :: seg3)))
            ++ (delimiter ++ encodeStream w)
      rw [ih (by simp)]
      simp [List.append_assoc]

lemma streamLen_eq_joinRecords {seg : List (List Nat)} (h : seg ≠ []) :
    (encodeStream seg).length = (joinRecords seg).length + 2 := by
  have hd := encodeStream_eq_joinRecords_append (w := []) h
  rw [List.append_nil] at hd
  rw [hd, show encodeStream [] = [] from rfl]
  simp [delimiter]

lemma slice_stream_segment {rs : List (List Nat)} {m K : Nat} (hmK : m ≤ K)
    (hK : K < rs.length) :
    slice (encodeStream rs) (startPos rs m) (endPos rs K)
      = joinRecords ((rs.drop m).take (K + 1 - m)) := by
  have hsegne : (rs.drop m).take (K + 1 - m) ≠ [] := by
    intro hnil
    have h2 := congrArg List.length hnil
    simp only [List.length_take, List.length_drop, List.length_nil] at h2
    omega
  have htake : rs.take (K + 1) = rs.take m ++ (rs.drop m).take (K + 1 - m) := by
    conv_rhs => rw [← List.take_add]
    congr 1
    omega
  have hseg : rs = rs.take m ++ ((rs.drop m).take (K + 1 - m) ++ rs.drop (K + 1)) := by
    have h2 : (rs.drop m).drop (K + 1 - m) = rs.drop (K + 1) := by
      rw [List.drop_drop]
      congr 1
      omega
    conv_lhs => rw [← List.take_append_drop m rs,
      ← List.take_append_drop (K + 1 - m) (rs.drop m)]
    rw [h2]
  have hsp1 : startPos rs (K + 1) = startPos rs m
      + (encodeStream ((rs.drop m).take (K + 1 - m))).length := by
    unfold startPos streamLen
    rw [htake, encodeStream_append, List.length_append]
  have hsucK := startPos_succ hK
  have hlen := streamLen_eq_joinRecords hsegne
  have hjl : endPos rs K = startPos rs m
      + (joinRecords ((rs.drop m).take (K + 1 - m))).length := by
    omega
  have hdec : encodeStream rs = encodeStream (rs.take m)
      ++ (joinRecords ((rs.drop m).take (K + 1 - m))
        ++ (delimiter ++ encodeStream (rs.drop (K + 1)))) := by
    conv_lhs => rw [hseg]
    rw [encodeStream_append, encodeStream_eq_joinRecords_append hsegne]
  rw [hdec, hjl]
  exact slice_append_mid _ _ _

lemma filter_eq_drop_take (p : List Nat → Bool) :
    ∀ (rs : List (List Nat)) (m K : Nat), m ≤ K → K < rs.length →
    (∀ i, i < rs.length → (p (rs.getD i []) = true ↔ (m ≤ i ∧ i ≤ K))) →
    rs.filter p = (rs.drop m).take (K + 1 - m) := by
  intro rs
  induction rs with
  | nil =>
    intro m K hmK hK hchar
    simp at hK
  | cons r rest ih =>
    intro m K hmK hK hchar
    rcases Nat.eq_zero_or_pos m with rfl | hm
    · have hr : p r = true := by
        have h0 := (hchar 0 (by simp)).mpr ⟨le_refl 0, by omega⟩
        simpa using h0
      rw [List.filter_cons_of_pos hr]
      rcases Nat.eq_zero_or_pos K with rfl | hKpos
      · have hrest : rest.filter p = [] := by
          rw [List.filter_eq_nil_iff]
          intro x hx
          obtain ⟨i, hi, rfl⟩ := List.mem_iff_getElem.mp hx
          intro hcontra
          have hchr := (hchar (i + 1) (by simp; omega)).mp
            (by
              rw [List.getD_cons_succ, rs_getD_eq hi]
              exact hcontra)
          omega
        rw [hrest]
        simp
      · have hchar2 : ∀ i, i < rest.length →
            (p (rest.getD i []) = true ↔ (0 ≤ i ∧ i ≤ K - 1)) := by
          intro i hi
          have := hchar (i + 1) (by simp; omega)
          rw [List.getD_cons_succ] at this
          rw [this]
          omega
        rw [ih 0 (K - 1) (by omega) (by simp at hK; omega) hchar2]
        simp only [List.drop_zero]
        rw [show K + 1 - 0 = K + 1 by omega, show K - 1 + 1 - 0 = K by omega,
          List.take_succ_cons]
    · have hr : p r = false := by
        rcases hpr : p r with _ | _
        · rfl
        · have h0 := (hchar 0 (by simp)).mp (by simpa using hpr)
          omega
      rw [List.filter_cons_of_neg (by simp [hr])]
      have hchar2 : ∀ i, i < rest.length →
          (p (rest.getD i []) = true ↔ (m - 1 ≤ i ∧ i ≤ K - 1)) := by
        intro i hi
        have := hchar (i + 1) (by simp; omega)
        rw [List.getD_cons_succ] at this
        rw [this]
        omega
      rw [ih (m - 1) (K - 1) (by omega) (by simp at hK; omega) hchar2]
      rw [show m = m - 1 + 1 by omega, List.drop_succ_cons,
        show m - 1 + 1 - 1 = m - 1 by omega,
        show K + 1 - (m - 1 + 1) = K - 1 + 1 - (m - 1) by omega]

lemma FindRecordsWithPrefix_nil (P : List Nat) :
    FindRecordsWithPrefix [] P = .ok [] := by
  unfold FindRecordsWithPrefix
  simp only [List.length_nil]
  rw [stripLeadingIdx_empty (le_refl 0), stripTrailingIdx_empty (le_refl 0),
    phase1_exit (lt_irrefl 0)]
  simp only []
  rw [if_pos (le_refl 0)]

/-- `FindRecordsWithPrefix` on a sorted encoded stream returns exactly the
delimiter-joined run of records whose content starts with the prefix. -/
lemma FindRecordsWithPrefix_stream {rs : List (List Nat)} {P : List Nat}
    (hs : rs.Pairwise (fun x y => bytesCompare x y ≤ 0)) :
    FindRecordsWithPrefix (encodeStream rs) P
      = .ok (joinRecords (rs.filter (fun r => specPrefixCmp r P == 0))) := by
  rcases List.eq_nil_or_concat rs with rfl | hne
  case inl =>
    rw [show encodeStream [] = [] from rfl, FindRecordsWithPrefix_nil]
    rfl
  have hn : 0 < rs.length := by
    obtain ⟨u, x, rfl⟩ := hne
    simp
  have hb : rs.length - 1 < rs.length := by omega
  have hlen := startPos_length rs
  have hsuc := startPos_succ hb
  rw [show rs.length - 1 + 1 = rs.length by omega] at hsuc
  have hmn0 : stripLeadingIdx (encodeStream rs) 0 (encodeStream rs).length = 0 :=
    stripLeadingIdx_stop (not_pairAt_startPos (c := 0) rs (by omega))
  have hmx0 : stripTrailingIdx (encodeStream rs) 0 (encodeStream rs).length
      = endPos rs (rs.length - 1) := by
    rw [← hlen]
    exact stripTrailingIdx_startPos (a := 0) (by omega) (le_refl _)
  unfold FindRecordsWithPrefix
  simp only []
  rw [hmn0, hmx0]
  have hspec := phase1_spec (P := P) hs (endPos rs (rs.length - 1) + 1) 0 (rs.length - 1)
    (endPos rs (rs.length - 1)) 0 (by omega) (by omega) hb
    (by intro i hi; omega) (Or.inl (by intro i h1 h2; omega))
  rcases hspec with ⟨m, hm, hm0, hleast, hres⟩ | ⟨hnm, hres⟩
  · -- a matching record exists; the scan extends it to the full run
    have hres0 : phase1 (encodeStream rs) P 0 (endPos rs (rs.length - 1))
        (endPos rs (rs.length - 1)) 0 = .ok (startPos rs m, endPos rs m) := hres
    rw [hres0]
    simp only []
    rw [if_neg (by have := startPos_lt_endPos hm; omega)]
    obtain ⟨K, hmK, hKn, hmatch, hbound, hres2⟩ :=
      phase2_spec (P := P) (rs.length + 1) m (by omega) hm
    rw [hres2]
    simp only []
    rw [slice_stream_segment hmK hKn]
    have hchar : ∀ i, i < rs.length →
        (((fun r => specPrefixCmp r P == 0) (rs.getD i [])) = true
          ↔ (m ≤ i ∧ i ≤ K)) := by
      intro i hi
      simp only [beq_iff_eq]
      constructor
      · intro h0
        refine ⟨?_, ?_⟩
        · by_contra hc
          push_neg at hc
          exact hleast i hc h0
        · by_contra hc
          push_neg at hc
          rcases hbound with hKend | hKne
          · omega
          · apply hKne
            exact specPrefixCmp_sandwich
              (sorted_getD_le hs (show m ≤ K + 1 by omega) (by omega))
              (sorted_getD_le hs (show K + 1 ≤ i by omega) hi) hm0 h0
      · rintro ⟨h1, h2⟩
        rcases Nat.eq_or_lt_of_le h1 with rfl | h
        · exact hm0
        · exact hmatch i h h2
    rw [filter_eq_drop_take (fun r => specPrefixCmp r P == 0) rs m K hmK hKn hchar]
  · -- no record matches: the result is the empty sub-slice
    have hres0 : phase1 (encodeStream rs) P 0 (endPos rs (rs.length - 1))
        (endPos rs (rs.length - 1)) 0 = .ok (endPos rs (rs.length - 1), 0) := hres
    rw [hres0]
    simp only []
    rw [if_pos (by omega)]
    have hfilter : rs.filter (fun r => specPrefixCmp r P == 0) = [] := by
      rw [List.filter_eq_nil_iff]
      intro x hx
      obtain ⟨i, hi, rfl⟩ := List.mem_iff_getElem.mp hx
      have hni := hnm i hi
      rw [rs_getD_eq hi] at hni
      simp [hni]
    rw [hfilter]
    rfl

/-- The (two-byte header value, payload chunk) pairs that `encodeLoop`
emits, in order (same recursion structure as `encodeLoop`). -/
def encodeLoopRuns (record : List Nat) : List (Nat × List Nat) :=
  let runSize := findDelimiter record maxRemainingRun
  if hterm : runSize < maxRemainingRun then
    if hnil : record.drop runSize = [] then
      [(runSize, record.take runSize)]
    else
      (runSize, record.take runSize)
        :: encodeLoopRuns ((record.drop runSize).drop 2)
  else
    (runSize, record.take runSize) :: encodeLoopRuns (record.drop runSize)
termination_by record.length
decreasing_by
  · have h1 := findDelimiter_le_length record maxRemainingRun
    have h4 : 0 < (record.drop (findDelimiter record maxRemainingRun)).length :=
      List.length_pos.mpr hnil
    simp only [List.length_drop] at h4 ⊢
    omega
  · have h1 := findDelimiter_le_length record maxRemainingRun
    have h2 : maxRemainingRun ≤ findDelimiter record maxRemainingRun :=
      Nat.le_of_not_lt hterm
    simp only [List.length_drop, maxRemainingRun_eq] at h1 h2 ⊢
    omega

/-- Reassembles the header/chunk pairs into the byte stream `encodeLoop`
writes: each run contributes its two base-253 header bytes then its payload. -/
def chunksAssemble : List (Nat × List Nat) → List Nat
  | [] => []
  | (n, c) :: rest => n % radix :: n / radix :: (c ++ chunksAssemble rest)

lemma encodeLoopRuns_eq_terminal_nil {r : List Nat}
    (h1 : findDelimiter r maxRemainingRun < maxRemainingRun)
    (h2 : r.drop (findDelimiter r maxRemainingRun) = []) :
    encodeLoopRuns r
      = [(findDelimiter r maxRemainingRun,
          r.take (findDelimiter r maxRemainingRun))] := by
  rw [encodeLoopRuns]
  simp only [dif_pos h1, dif_pos h2]

lemma encodeLoopRuns_eq_terminal_cons {r : List Nat}
    (h1 : findDelimiter r maxRemainingRun < maxRemainingRun)
    (h2 : r.drop (findDelimiter r maxRemainingRun) ≠ []) :
    encodeLoopRuns r
      = (findDelimiter r maxRemainingRun, r.take (findDelimiter r maxRemainingRun))
        :: encodeLoopRuns ((r.drop (findDelimiter r maxRemainingRun)).drop 2) := by
  rw [encodeLoopRuns]
  simp only [dif_pos h1, dif_neg h2]

lemma encodeLoopRuns_eq_saturated {r : List Nat}
    (h1 : ¬ findDelimiter r maxRemainingRun < maxRemainingRun) :
    encodeLoopRuns r
      = (findDelimiter r maxRemainingRun, r.take (findDelimiter r maxRemainingRun))
        :: encodeLoopRuns (r.drop (findDelimiter r maxRemainingRun)) := by
  rw [encodeLoopRuns]
  simp only [dif_neg h1]

lemma encodeLoop_eq_assemble (r : List Nat) :
    encodeLoop r = chunksAssemble (encodeLoopRuns r) := by
  suffices H : ∀ (fuel : Nat) (l : List Nat), l.length ≤ fuel →
      encodeLoop l = chunksAssemble (encodeLoopRuns l) by
    exact H r.length r le_rfl
  intro fuel
  induction fuel with
  | zero =>
    intro l hf
    have hl : l = [] := List.length_eq_zero.mp (by omega)
    subst hl
    rw [encodeLoop_eq_terminal_nil (by decide) (by decide),
      encodeLoopRuns_eq_terminal_nil (by decide) (by decide)]
    rfl
  | succ fuel ih =>
    intro l hf
    by_cases h1 : findDelimiter l maxRemainingRun < maxRemainingRun
    · by_cases h2 : l.drop (findDelimiter l maxRemainingRun) = []
      · rw [encodeLoop_eq_terminal_nil h1 h2, encodeLoopRuns_eq_terminal_nil h1 h2]
        show _ = _ % radix :: _ / radix
          :: (l.take (findDelimiter l maxRemainingRun) ++ chunksAssemble [])
        rw [show chunksAssemble [] = [] from rfl, List.append_nil]
      · have h4 : 0 < (l.drop (findDelimiter l maxRemainingRun)).length :=
          List.length_pos.mpr h2
        simp only [List.length_drop] at h4
        rw [encodeLoop_eq_terminal_cons h1 h2, encodeLoopRuns_eq_terminal_cons h1 h2,
          ih ((l.drop (findDelimiter l maxRemainingRun)).drop 2)
            (by simp only [List.length_drop]; omega)]
        rfl
    · have h3 := findDelimiter_le_length l maxRemainingRun
      have h5 : maxRemainingRun ≤ findDelimiter l maxRemainingRun :=
        Nat.le_of_not_lt h1
      rw [encodeLoop_eq_saturated h1, encodeLoopRuns_eq_saturated h1,
        ih (l.drop (findDelimiter l maxRemainingRun))
          (by
            simp only [List.length_drop, maxRemainingRun_eq] at h3 h5 ⊢
            omega)]
      rfl

lemma encodeLoopRuns_le (r : List Nat) :
    ∀ q ∈ encodeLoopRuns r, q.1 ≤ maxRemainingRun := by
  suffices H : ∀ (fuel : Nat) (l : List Nat), l.length ≤ fuel →
      ∀ q ∈ encodeLoopRuns l, q.1 ≤ maxRemainingRun by
    exact H r.length r le_rfl
  intro fuel
  induction fuel with
  | zero =>
    intro l hf q hq
    have hl : l = [] := List.length_eq_zero.mp (by omega)
    subst hl
    rw [encodeLoopRuns_eq_terminal_nil (by decide) (by decide)] at hq
    obtain rfl := List.mem_singleton.mp hq
    exact findDelimiter_le_max [] maxRemainingRun
  | succ fuel ih =>
    intro l hf q hq
    have hle := findDelimiter_le_max l maxRemainingRun
    by_cases h1 : findDelimiter l maxRemainingRun < maxRemainingRun
    · by_cases h2 : l.drop (findDelimiter l maxRemainingRun) = []
      · rw [encodeLoopRuns_eq_terminal_nil h1 h2] at hq
        obtain rfl := List.mem_singleton.mp hq
        exact hle
      · rw [encodeLoopRuns_eq_terminal_cons h1 h2] at hq
        rcases List.mem_cons.mp hq with rfl | hq2
        · exact hle
        · have h4 : 0 < (l.drop (findDelimiter l maxRemainingRun)).length :=
            List.length_pos.mpr h2
          simp only [List.length_drop] at h4
          exact ih ((l.drop (findDelimiter l maxRemainingRun)).drop 2)
            (by simp only [List.length_drop]; omega) q hq2
    · rw [encodeLoopRuns_eq_saturated h1] at hq
      rcases List.mem_cons.mp hq with rfl | hq2
      · exact hle
      · have h3 := findDelimiter_le_length l maxRemainingRun
        have h5 : maxRemainingRun ≤ findDelimiter l maxRemainingRun :=
          Nat.le_of_not_lt h1
        have hmr : (1 : Nat) ≤ maxRemainingRun := by
          simp only [maxRemainingRun_eq]
          omega
        refine ih (l.drop (findDelimiter l maxRemainingRun)) ?_ q hq2
        simp only [List.length_drop]
        omega

/-- The (two-byte header value, payload chunk) pairs of the loop part of
`Encode`'s output (the part after the one-byte initial header and its
chunk), mirroring `Encode`'s branch structure. -/
def EncodeRuns (record : List Nat) : List (Nat × List Nat) :=
  let runSize := findDelimiter record maxInitialRun
  if runSize < maxInitialRun then
    if record.drop runSize = [] then []
    else encodeLoopRuns ((record.drop runSize).drop 2)
  else encodeLoopRuns (record.drop runSize)

example : Encode [] = [0] := by
  simp [Encode, findDelimiter, findDelimIdx]
example : Encode [97, 98, 99] = [3, 97, 98, 99] := by
  simp [Encode, findDelimiter, findDelimIdx]
example : Encode [254, 253] = [0, 0, 0] := by
  simp [Encode, encodeLoop, findDelimiter, findDelimIdx]
example : Encode [97, 98, 99, 254, 253] = [3, 97, 98, 99, 0, 0] := by
  simp [Encode, encodeLoop, findDelimiter, findDelimIdx]
example : Encode [254, 253, 97, 98, 99] = [0, 3, 0, 97, 98, 99] := by
  simp [Encode, encodeLoop, findDelimiter, findDelimIdx]
example : Decode [3, 97, 98, 99, 3, 0, 97, 98, 99]
    = ([97, 98, 99, 254, 253, 97, 98, 99], none) := by
  simp [Decode, decodeLoop, delimiter]
example : Decode [3, 97, 98, 99, 1] = ([97, 98, 99, 254, 253], some .eof) := by
  simp [Decode, decodeLoop, delimiter]
example : Decode [253] = ([], some .invalidRunLength) := by
  simp [Decode]

end Stuffed

open Stuffed

/-- C1: for every byte sequence `R`, decoding the encoding of `R` recovers `R`
exactly — `Decode` on the bytes written by `Encode` returns success and
appends exactly `R` to the output sink. -/
theorem c1_round_trip (R : List Nat) : Decode (Encode R) = (R, none) :=
  Decode_Encode R

/-- C2: for every byte sequence `R`, the bytes appended by `Encode` never
contain the two-byte delimiter `0xFE 0xFD` as a substring at any position
(stated both via the repository's own search function `findDelimIdx` and as
the absence of a list infix). -/
theorem c2_delimiter_freedom (R : List Nat) :
    findDelimIdx (Encode R) = none ∧ ¬ delimiter <:+: Encode R := by
  refine ⟨?_, ?_⟩
  · rw [findDelimIdx_eq_none_iff]
    exact Encode_noPair R
  · rw [delimiter_infix_iff]
    rintro ⟨j, hj⟩
    exact Encode_noPair R j hj

/-- C6: the initial one-byte header greater than 252, or a subsequent two-byte
header `b0 + 253*b1` greater than 64008, makes `Decode` return
`InvalidRunLength`; a missing header or a payload shorter than its header
yields `Eof`; and every decode error is one of these two. -/
theorem c6_structural_errors :
    (∀ (b0 : Nat) (rest : List Nat), b0 > 252 →
      (Decode (b0 :: rest)).2 = some DecodeError.invalidRunLength) ∧
    (∀ (b0 b1 : Nat) (rest : List Nat), b0 + 253 * b1 > 64008 →
      (decodeLoop (b0 :: b1 :: rest)).2 = some DecodeError.invalidRunLength) ∧
    ((Decode []).2 = some DecodeError.eof) ∧
    (∀ (b0 : Nat) (rest : List Nat), b0 ≤ 252 → rest.length < b0 →
      (Decode (b0 :: rest)).2 = some DecodeError.eof) ∧
    ((decodeLoop []).2 = some DecodeError.eof) ∧
    (∀ b : Nat, (decodeLoop [b]).2 = some DecodeError.eof) ∧
    (∀ (b0 b1 : Nat) (rest : List Nat), b0 + 253 * b1 ≤ 64008 →
      rest.length < b0 + 253 * b1 →
      (decodeLoop (b0 :: b1 :: rest)).2 = some DecodeError.eof) ∧
    (∀ (e : List Nat) (err : DecodeError), (Decode e).2 = some err →
      err = DecodeError.eof ∨ err = DecodeError.invalidRunLength) := by
  refine ⟨?_, ?_, ?_, ?_, ?_, ?_, ?_, ?_⟩
  · intro b0 rest h
    rw [Decode_cons, if_pos (by simp only [maxInitialRun_eq]; omega)]
  · intro b0 b1 rest h
    rw [decodeLoop_cons2,
      if_pos (by simp only [maxRemainingRun_eq, radix_eq]; omega)]
  · rfl
  · intro b0 rest h1 h2
    rw [Decode_cons, if_neg (by simp only [maxInitialRun_eq]; omega),
      if_pos h2]
  · rw [decodeLoop]
  · intro b
    rw [decodeLoop]
  · intro b0 b1 rest h1 h2
    rw [decodeLoop_cons2,
      if_neg (by simp only [maxRemainingRun_eq, radix_eq]; omega),
      if_pos (by simp only [radix_eq]; omega)]
  · intro e err _
    cases err
    · exact Or.inl rfl
    · exact Or.inr rfl

/-- Witness for C6 at concrete inputs. -/
theorem c6_structural_errors_witness :
    (Decode [253]).2 = some DecodeError.invalidRunLength ∧
    (decodeLoop [255, 253]).2 = some DecodeError.invalidRunLength ∧
    (Decode [3, 97, 98]).2 = some DecodeError.eof ∧
    (decodeLoop [1, 0]).2 = some DecodeError.eof :=
  ⟨c6_structural_errors.1 253 [] (by norm_num),
   c6_structural_errors.2.1 255 253 [] (by norm_num),
   c6_structural_errors.2.2.2.1 3 [97, 98] (by norm_num) (by simp),
   c6_structural_errors.2.2.2.2.2.2.1 1 0 [] (by norm_num) (by simp)⟩

/-- C8: `IsStartOfRecord buffer k` is true exactly when `k` is strictly inside
the buffer and either `k = 0` or the two bytes immediately before `k` are the
delimiter pair; in particular `k = 1` and `k = length` always give `false`. -/
theorem c8_is_start_of_record :
    (∀ (B : List Nat) (k : Nat),
      IsStartOfRecord B k = true ↔
        (k < B.length ∧ (k = 0 ∨ (2 ≤ k ∧ B.getD (k - 2) 0 = delimiter0 ∧
          B.getD (k - 1) 0 = delimiter1)))) ∧
    (∀ B : List Nat, IsStartOfRecord B 1 = false) ∧
    (∀ B : List Nat, IsStartOfRecord B B.length = false) := by
  refine ⟨?_, ?_, ?_⟩
  · intro B k
    unfold IsStartOfRecord
    by_cases h1 : k = 1 ∨ k ≥ B.length
    · rw [if_pos h1]
      simp only [Bool.false_eq_true, false_iff]
      rintro ⟨hk, hor⟩
      rcases h1 with rfl | h1
      · rcases hor with h | ⟨h, _⟩
        · exact absurd h (by omega)
        · omega
      · omega
    · rw [if_neg h1]
      push_neg at h1
      by_cases h2 : 2 ≤ k ∧ ¬ (B.getD (k - 2) 0 = delimiter0 ∧
          B.getD (k - 1) 0 = delimiter1)
      · rw [if_pos h2]
        simp only [Bool.false_eq_true, false_iff]
        rintro ⟨hk, hor⟩
        rcases hor with h | ⟨hge, hpair⟩
        · omega
        · exact h2.2 hpair
      · rw [if_neg h2]
        simp only [true_iff]
        refine ⟨by omega, ?_⟩
        rcases Nat.lt_or_ge k 2 with hk2 | hk2
        · left
          omega
        · right
          refine ⟨hk2, ?_⟩
          by_contra hc
          exact h2 ⟨hk2, hc⟩
  · intro B
    unfold IsStartOfRecord
    rw [if_pos (Or.inl rfl)]
  · intro B
    unfold IsStartOfRecord
    rw [if_pos (Or.inr (le_refl _))]

/-- C10: `Decode` is not atomic in its output sink — on the five-byte input
`03 61 62 63 01` it reports `Eof` but has already appended the first chunk's
payload and the reinserted delimiter to the sink. -/
theorem c10_decode_not_atomic :
    Decode [0x03, 0x61, 0x62, 0x63, 0x01]
      = ([0x61, 0x62, 0x63, 0xfe, 0xfd], some DecodeError.eof) ∧
    ([0x61, 0x62, 0x63, 0xfe, 0xfd] : List Nat) ≠ [] := by
  refine ⟨?_, by simp⟩
  simp [Decode, decodeLoop, delimiter]

/-- C5: building a stream from records with delimiter pairs between them
(and any number of leading, trailing, or consecutive delimiter pairs, which
denote no records), then iterating with `Scanner.Next` and decoding each
record, yields exactly the original record list with no decode errors. -/
theorem c5_stream_round_trip (ps : List (Nat × List Nat)) (kend : Nat)
    (h : ∀ p ∈ ps.drop 1, 1 ≤ p.1) :
    (scanEncoded (paddedStream ps kend)).map Decode
      = ps.map (fun p => (p.2, (none : Option DecodeError))) := by
  rw [scan_paddedStream ps kend h, List.map_map]
  apply List.map_congr_left
  intro p _
  exact Decode_Encode p.2

/-- Witness for C5 at a concrete input: a record, two delimiter pairs, a
record containing the delimiter, and one trailing delimiter pair. -/
theorem c5_stream_round_trip_witness :
    (∀ p ∈ ([(0, [97]), (2, [254, 253])] : List (Nat × List Nat)).drop 1,
      1 ≤ p.1) ∧
    (scanEncoded (paddedStream [(0, [97]), (2, [254, 253])] 1)).map Decode
      = ([(0, [97]), (2, [254, 253])] : List (Nat × List Nat)).map
          (fun p => (p.2, (none : Option DecodeError))) :=
  ⟨by decide, c5_stream_round_trip [(0, [97]), (2, [254, 253])] 1 (by decide)⟩

/-- C3: on the encoding of any record `R`, `CompareEncodedPrefix` returns
(with no error) exactly the ordering described by the claim — `0` when `R`'s
initial segment equals `P` (in particular when `P` is empty), `-1` when `R`
is strictly shorter than `P` with all of `R` matching or `R`'s first
differing byte is smaller, `1` when it is larger (this case analysis is the
definition of `specPrefixCmp`) — and consequently `EncodedStartsWith` on the
encoding returns true exactly when `R` starts with `P`. -/
theorem c3_compare_encoded (R P : List Nat) :
    CompareEncodedPrefix (Encode R) P = (specPrefixCmp R P, none) ∧
    EncodedStartsWith (Encode R) P = (decide (P <+: R), none) ∧
    (specPrefixCmp R P = 0 ↔ P <+: R) := by
  refine ⟨CompareEncodedPrefix_Encode R P, ?_, specPrefixCmp_eq_zero_iff R P⟩
  unfold EncodedStartsWith
  rw [CompareEncodedPrefix_Encode R P]
  by_cases h : P <+: R
  · have h0 : specPrefixCmp R P = 0 := (specPrefixCmp_eq_zero_iff R P).mpr h
    simp [h0, h]
  · have h0 : specPrefixCmp R P ≠ 0 :=
      fun hc => h ((specPrefixCmp_eq_zero_iff R P).mp hc)
    simp [h0, h]

/-- C7: after finishing records `rs` in order and possibly reordering them
by `Sort` (modelled as an arbitrary permutation `entries` of the indexed
record list), `EncodeWithOffsets` into a sink already holding `dest` returns
an offsets array of length `rs.length` indexed by original record index:
for each `i`, the final sink at byte offset `offsets[i]` begins record `i`'s
encoded form (followed by its delimiter), and decoding that encoded form
yields record `i` exactly. -/
theorem c7_encode_with_offsets (rs : List (List Nat))
    (entries : List (Nat × List Nat)) (dest : List Nat)
    (hperm : entries.Perm rs.enum) :
    (EncodeWithOffsets entries dest (List.replicate rs.length 0)).2.length
      = rs.length ∧
    ∀ i, (hi : i < rs.length) → ∃ t,
      (EncodeWithOffsets entries dest (List.replicate rs.length 0)).1.drop
        ((EncodeWithOffsets entries dest (List.replicate rs.length 0)).2.getD i 0)
        = Encode rs[i] ++ (delimiter ++ t) ∧
      Decode (Encode rs[i]) = (rs[i], none) := by
  have hnd : (entries.map Prod.fst).Nodup := by
    have hmap : (entries.map Prod.fst).Perm (rs.enum.map Prod.fst) :=
      hperm.map Prod.fst
    rw [hmap.nodup_iff, List.enum_map_fst]
    exact List.nodup_range rs.length
  have hlt : ∀ p ∈ entries, p.1 < (List.replicate rs.length 0).length := by
    intro p hp
    rw [List.length_replicate]
    rw [hperm.mem_iff, List.mem_enum_iff_getElem?] at hp
    exact (List.getElem?_eq_some.mp hp).1
  refine ⟨by rw [ewo_length, List.length_replicate], ?_⟩
  intro i hi
  have hmem : (i, rs[i]) ∈ entries := by
    rw [hperm.mem_iff, List.mem_enum_iff_getElem?]
    exact List.getElem?_eq_some.mpr ⟨hi, rfl⟩
  obtain ⟨t, ht⟩ := ewo_spec entries dest (List.replicate rs.length 0) hlt hnd
    (i, rs[i]) hmem
  exact ⟨t, ht, Decode_Encode _⟩

/-- Witness for C7: two records finished in order and swapped by sorting. -/
theorem c7_encode_with_offsets_witness :
    ([((1 : Nat), [98]), (0, [99])] : List (Nat × List Nat)).Perm
      ([[99], [98]] : List (List Nat)).enum ∧
    (EncodeWithOffsets [(1, [98]), (0, [99])] []
      (List.replicate 2 0)).2.length = 2 :=
  ⟨by decide,
   (c7_encode_with_offsets [[99], [98]] [(1, [98]), (0, [99])] [] (by decide)).1⟩

/-- C4: for every list of records sorted ascending by decoded content and
encoded as a delimiter-separated stream, and every prefix, the Go
`FindRecordsWithPrefix` succeeds and returns exactly the delimiter-joined run
of encoded records whose decoded content begins with the prefix, in stream
order, with no leading or trailing delimiter pair; when no record matches it
returns the empty sub-slice. -/
theorem c4_find_records_with_prefix (rs : List (List Nat)) (P : List Nat)
    (hs : rs.Pairwise (fun x y => bytesCompare x y ≤ 0)) :
    FindRecordsWithPrefix (encodeStream rs) P
      = .ok (joinRecords (rs.filter (fun r => decide (P <+: r)))) := by
  rw [FindRecordsWithPrefix_stream hs]
  have hfe : rs.filter (fun r => specPrefixCmp r P == 0)
      = rs.filter (fun r => decide (P <+: r)) := by
    apply List.filter_congr
    intro x hx
    cases hd : decide (P <+: x) with
    | true =>
      have hpre := of_decide_eq_true hd
      simp [(specPrefixCmp_eq_zero_iff x P).mpr hpre]
    | false =>
      have hpre := of_decide_eq_false hd
      rw [beq_eq_false_iff_ne]
      intro hc
      exact hpre ((specPrefixCmp_eq_zero_iff x P).mp hc)
  rw [hfe]

/-- Witness for C4: a sorted two-record stream probed with a prefix matching
only the second record. -/
theorem c4_find_records_with_prefix_witness :
    ([[1], [2, 3]] : List (List Nat)).Pairwise (fun x y => bytesCompare x y ≤ 0)
    ∧ FindRecordsWithPrefix (encodeStream [[1], [2, 3]]) [2]
      = .ok (joinRecords (([[1], [2, 3]] : List (List Nat)).filter
          (fun r => decide ([2] <+: r)))) :=
  ⟨by decide, c4_find_records_with_prefix [[1], [2, 3]] [2] (by decide)⟩

/-- C9: `Encode`'s output is its one-byte initial header (the initial run
length, at most 252) followed by that run's payload and then the assembled
two-byte-header runs of `encodeLoop`; every header byte — the initial one and
both base-253 bytes `runSize % 253` and `runSize / 253` of every subsequent
run — is strictly less than 0xFD. -/
theorem c9_header_bytes (r : List Nat) :
    Encode r = findDelimiter r maxInitialRun
        :: (r.take (findDelimiter r maxInitialRun) ++ chunksAssemble (EncodeRuns r))
      ∧ findDelimiter r maxInitialRun < 0xFD
      ∧ ∀ q ∈ EncodeRuns r, q.1 % radix < 0xFD ∧ q.1 / radix < 0xFD := by
  have hini := findDelimiter_le_max r maxInitialRun
  refine ⟨?_, ?_, ?_⟩
  · unfold EncodeRuns
    simp only []
    by_cases h1 : findDelimiter r maxInitialRun < maxInitialRun
    · by_cases h2 : r.drop (findDelimiter r maxInitialRun) = []
      · rw [Encode_eq_terminal_nil h1 h2, if_pos h1, if_pos h2,
          show chunksAssemble [] = [] from rfl, List.append_nil]
      · rw [Encode_eq_terminal_cons h1 h2, if_pos h1, if_neg h2,
          encodeLoop_eq_assemble]
    · rw [Encode_eq_saturated h1, if_neg h1, encodeLoop_eq_assemble]
  · have h253 : maxInitialRun < 0xFD := by
      simp only [maxInitialRun_eq]
      omega
    omega
  · intro q hq
    have hle : q.1 ≤ maxRemainingRun := by
      unfold EncodeRuns at hq
      simp only [] at hq
      by_cases h1 : findDelimiter r maxInitialRun < maxInitialRun
      · by_cases h2 : r.drop (findDelimiter r maxInitialRun) = []
        · rw [if_pos h1, if_pos h2] at hq
          cases hq
        · rw [if_pos h1, if_neg h2] at hq
          exact encodeLoopRuns_le _ q hq
      · rw [if_neg h1] at hq
        exact encodeLoopRuns_le _ q hq
    simp only [maxRemainingRun_eq] at hle
    simp only [radix_eq]
    exact ⟨by omega, by omega⟩

/-- Witness for C9: the record `0xFE 0xFD` produces one loop run, whose
header bytes are below 0xFD. -/
theorem c9_header_bytes_witness :
    ((0, ([] : List Nat)) ∈ EncodeRuns [254, 253])
    ∧ (0 % radix < 0xFD ∧ 0 / radix < 0xFD) := by
  have hER : EncodeRuns [254, 253] = [(0, [])] := by
    unfold EncodeRuns
    rw [if_pos (by decide), if_neg (by decide)]
    rw [show (([254, 253] : List Nat).drop
        (findDelimiter [254, 253] maxInitialRun)).drop 2 = [] by decide]
    rw [encodeLoopRuns_eq_terminal_nil (by decide) (by decide)]
    decide
  have hmem : ((0 : Nat), ([] : List Nat)) ∈ EncodeRuns [254, 253] := by
    rw [hER]
    exact List.mem_singleton.mpr rfl
  exact ⟨hmem, (c9_header_bytes [254, 253]).2.2 (0, []) hmem⟩
